import Mathlib

set_option maxRecDepth 40000

/-!
# Verification of the memory-engine core

A shallow embedding of the memory engine of this repository
(`memory/embeddings.py`, `memory/dedup.py`, `memory/chunker.py`,
`memory/scoring.py`, `memory/retrieval.py`, `memory/consolidation.py`,
`memory/knowledge_cache.py`, `memory/engine.py`) together with theorems
checking the specification's claims against it.

Modelling conventions:
* Python floats are idealised as exact arithmetic: stored numbers are `ℚ`,
  computed similarity/score values live in `ℝ` (square roots appear in norms).
* `np.ndarray` embedding vectors are lists of rationals.
* SQLite tables are Lean lists of rows, kept in insertion order; SQL `UPDATE`/
  `DELETE ... WHERE id = ?` act on every row matching the key.
* `uuid`-generated identifiers and `CURRENT_TIMESTAMP` values are supplied as
  explicit parameters (an id supply and a clock value).
* Python exceptions of external effects (the embedding provider, database
  reads) are modelled with `Except`/`Bool` fault parameters; internal code is
  total.
-/

/-- Embedding vector (`np.ndarray`), idealised as a list of rationals. -/
abbrev Vec := List ℚ

/-- `np.dot a b` — the dot product of two vectors. -/
def dot (a b : Vec) : ℚ := (List.zipWith (· * ·) a b).sum

/-- Sum of squares of the entries of `v`; `np.linalg.norm v = Real.sqrt (sumSq v)`,
so the `norm == 0` test of the source is exactly `sumSq = 0`. -/
def sumSq (v : Vec) : ℚ := (v.map (fun x => x * x)).sum

/-- `embeddings.cosine_similarity` (embeddings.py 57-63): returns `0.0` when either
norm is zero, else `dot a b / (‖a‖ * ‖b‖)`. -/
noncomputable def cosine_similarity (a b : Vec) : ℝ :=
  if sumSq a = 0 ∨ sumSq b = 0 then 0
  else (dot a b : ℝ) / (Real.sqrt (sumSq a) * Real.sqrt (sumSq b))

lemma sumSq_nonneg (v : Vec) : 0 ≤ sumSq v := by
  unfold sumSq
  induction v with
  | nil => simp
  | cons x xs ih =>
    simp only [List.map_cons, List.sum_cons]
    nlinarith [mul_self_nonneg x]

/-- Evaluation helper: when both sums of squares are (positive) perfect squares the
similarity is a ratio of rationals. -/
lemma cosine_similarity_eval (a b : Vec) (x y : ℚ) (hx : 0 < x) (hy : 0 < y)
    (ha : sumSq a = x * x) (hb : sumSq b = y * y) :
    cosine_similarity a b = (dot a b : ℝ) / ((x : ℝ) * (y : ℝ)) := by
  have hx' : Real.sqrt ((sumSq a : ℚ) : ℝ) = (x : ℝ) := by
    rw [ha]; push_cast
    rw [show ((x : ℝ) * x) = (x : ℝ) ^ 2 by ring, Real.sqrt_sq (by exact_mod_cast hx.le)]
  have hy' : Real.sqrt ((sumSq b : ℚ) : ℝ) = (y : ℝ) := by
    rw [hb]; push_cast
    rw [show ((y : ℝ) * y) = (y : ℝ) ^ 2 by ring, Real.sqrt_sq (by exact_mod_cast hy.le)]
  have hne : ¬(sumSq a = 0 ∨ sumSq b = 0) := by
    rintro (h | h)
    · rw [h] at ha; nlinarith
    · rw [h] at hb; nlinarith
  rw [cosine_similarity, if_neg hne, hx', hy']

/- ## Deduplication (`memory/dedup.py`) -/

/-- `dedup.MatchType` (dedup.py 14-17). -/
inductive MatchType
  | EXACT_DUP
  | RELATED
  | NOVEL
deriving DecidableEq, Repr

/-- `dedup.DedupResult` (dedup.py 20-24). -/
structure DedupResult where
  match_type : MatchType
  matched_id : Option String := none
  similarity : ℝ := 0

/-- The best-match loop of `check_duplicate` (dedup.py 32-38): running best
similarity starts at `0.0` and is replaced only on a strictly greater value. -/
noncomputable def bestMatch (embedding : Vec) (existing : List (String × Vec)) :
    ℝ × Option String :=
  existing.foldl
    (fun best p =>
      let sim := cosine_similarity embedding p.2
      if sim > best.1 then (sim, some p.1) else best)
    (0, none)

open Classical in
/-- `dedup.check_duplicate` (dedup.py 27-45). -/
noncomputable def check_duplicate (embedding : Vec) (existing : List (String × Vec)) :
    DedupResult :=
  let best := bestMatch embedding existing
  if best.1 > 0.92 then ⟨.EXACT_DUP, best.2, best.1⟩
  else if best.1 > 0.7 then ⟨.RELATED, best.2, best.1⟩
  else ⟨.NOVEL, none, best.1⟩

/-- Importance update of `handle_duplicate`'s `EXACT_DUP` branch (dedup.py 59-64):
SQL `MIN(importance + 0.1, 1.0)`. -/
def dupBoostImportance (importance : ℚ) : ℚ := min (importance + 0.1) 1

/-- Importance update of `MemoryEngine.feedback` (engine.py 238-246):
`delta = 0.1 if positive else -0.3`, SQL `MAX(0, MIN(importance + delta, 1.0))`. -/
def feedbackImportance (importance : ℚ) (positive : Bool) : ℚ :=
  let delta : ℚ := if positive then 0.1 else -0.3
  max 0 (min (importance + delta) 1)

/- ## Context budgeting (`MemoryEngine.get_context_budget`, engine.py 248-254) -/

/-- `MemoryEngine.get_context_budget`. `int(total_tokens * f)` for a nonnegative
int and an exact percentage truncates toward zero, i.e. is Nat division. -/
def get_context_budget (total_tokens conversation_tokens : ℕ) : ℤ :=
  let max_memory_tokens : ℕ := total_tokens * 15 / 100
  let system_tokens : ℕ := total_tokens * 10 / 100
  let response_buffer : ℕ := total_tokens * 10 / 100
  let available : ℤ :=
    (total_tokens : ℤ) - system_tokens - conversation_tokens - response_buffer
  min available (max_memory_tokens : ℤ)

/- ## Helper lemmas about the best-match fold -/

lemma bestMatch_nonneg (emb : Vec) (existing : List (String × Vec)) :
    0 ≤ (bestMatch emb existing).1 := by
  unfold bestMatch
  suffices h : ∀ (init : ℝ × Option String), 0 ≤ init.1 →
      0 ≤ (existing.foldl (fun best p =>
        let sim := cosine_similarity emb p.2
        if sim > best.1 then (sim, some p.1) else best) init).1 from
    h (0, none) le_rfl
  induction existing with
  | nil => intro init h; simpa using h
  | cons p rest ih =>
    intro init h
    simp only [List.foldl_cons]
    apply ih
    by_cases hcmp : cosine_similarity emb p.2 > init.1
    · simp only [if_pos hcmp]; exact le_of_lt (lt_of_le_of_lt h hcmp)
    · simp only [if_neg hcmp]; exact h

lemma bestMatch_all_nonpos (emb : Vec) (existing : List (String × Vec))
    (h : ∀ p ∈ existing, cosine_similarity emb p.2 ≤ 0) :
    bestMatch emb existing = (0, none) := by
  unfold bestMatch
  induction existing with
  | nil => simp
  | cons p rest ih =>
    simp only [List.foldl_cons]
    rw [if_neg (by simpa using (h p (by simp)).not_lt)]
    exact ih (fun q hq => h q (by simp [hq]))

lemma bestMatch_pos_some (emb : Vec) (existing : List (String × Vec))
    (h : 0 < (bestMatch emb existing).1) :
    ∃ i, (bestMatch emb existing).2 = some i := by
  unfold bestMatch at *
  suffices hgen : ∀ (init : ℝ × Option String),
      (0 < init.1 → ∃ i, init.2 = some i) →
      (0 < (existing.foldl (fun best p =>
        let sim := cosine_similarity emb p.2
        if sim > best.1 then (sim, some p.1) else best) init).1 →
       ∃ i, (existing.foldl (fun best p =>
        let sim := cosine_similarity emb p.2
        if sim > best.1 then (sim, some p.1) else best) init).2 = some i) from
    hgen (0, none) (by simp) h
  clear h
  induction existing with
  | nil => intro init h; simpa using h
  | cons p rest ih =>
    intro init hinit
    simp only [List.foldl_cons]
    apply ih
    by_cases hcmp : cosine_similarity emb p.2 > init.1
    · simp only [if_pos hcmp]; exact fun _ => ⟨p.1, rfl⟩
    · simp only [if_neg hcmp]; exact hinit

lemma check_duplicate_similarity (emb : Vec) (existing : List (String × Vec)) :
    (check_duplicate emb existing).similarity = (bestMatch emb existing).1 := by
  simp only [check_duplicate]
  split
  · rfl
  · split <;> rfl

/- ## C1 -/

/-- C1 counterexample: with candidate `[1,0,0,0]` and the single existing embedding
`[7,7,1,1]` the best cosine similarity is exactly `0.70`, which lies in the claimed
RELATED band `0.70–0.92`, yet `check_duplicate` classifies it NOVEL (the code's
comparison is `best_sim > 0.7`, strict). -/
theorem check_duplicate_boundary_cex :
    (check_duplicate [1,0,0,0] [("m1", [7,7,1,1])]).match_type = MatchType.NOVEL ∧
    (check_duplicate [1,0,0,0] [("m1", [7,7,1,1])]).similarity = 7/10 ∧
    (0.70 : ℝ) ≤ 7/10 ∧ (7/10 : ℝ) ≤ 0.92 := by
  have hcos : cosine_similarity [1,0,0,0] [7,7,1,1] = 7/10 := by
    rw [cosine_similarity_eval [1,0,0,0] [7,7,1,1] 1 10 one_pos (by norm_num)
      (by norm_num [sumSq]) (by norm_num [sumSq])]
    norm_num [dot]
  have hb : bestMatch [1,0,0,0] [("m1", [7,7,1,1])] = (7/10, some "m1") := by
    unfold bestMatch
    simp only [List.foldl_cons, List.foldl_nil, hcos]
    norm_num
  refine ⟨?_, ?_, by norm_num, by norm_num⟩
  · unfold check_duplicate
    rw [hb]
    norm_num
  · rw [check_duplicate_similarity, hb]

/-- C1 (amended): `check_duplicate` classifies by the single best cosine similarity
kept by a strict `>` fold. Best similarity `> 0.92` yields EXACT_DUP (with the
matched id), best similarity strictly above `0.70` and at most `0.92` yields
RELATED with the matched id, best similarity at most `0.70` (rather than only
strictly below it) yields NOVEL, and a candidate appended with similarity tying
(or below) the current best leaves the best match unchanged, so the first-seen
candidate is kept on ties. -/
theorem check_duplicate_classification (emb : Vec) (existing : List (String × Vec)) :
    (0.92 < (bestMatch emb existing).1 →
      check_duplicate emb existing =
        ⟨.EXACT_DUP, (bestMatch emb existing).2, (bestMatch emb existing).1⟩ ∧
      ∃ i, (bestMatch emb existing).2 = some i) ∧
    (0.7 < (bestMatch emb existing).1 → (bestMatch emb existing).1 ≤ 0.92 →
      check_duplicate emb existing =
        ⟨.RELATED, (bestMatch emb existing).2, (bestMatch emb existing).1⟩ ∧
      ∃ i, (bestMatch emb existing).2 = some i) ∧
    ((bestMatch emb existing).1 ≤ 0.7 →
      check_duplicate emb existing = ⟨.NOVEL, none, (bestMatch emb existing).1⟩) ∧
    (∀ (i : String) (e : Vec), cosine_similarity emb e ≤ (bestMatch emb existing).1 →
      bestMatch emb (existing ++ [(i, e)]) = bestMatch emb existing) := by
  refine ⟨?_, ?_, ?_, ?_⟩
  · intro h
    refine ⟨?_, bestMatch_pos_some emb existing (lt_trans (by norm_num) h)⟩
    unfold check_duplicate
    rw [if_pos (by exact_mod_cast h)]
  · intro h1 h2
    refine ⟨?_, bestMatch_pos_some emb existing (lt_trans (by norm_num) h1)⟩
    unfold check_duplicate
    rw [if_neg (by push_cast; linarith), if_pos (by exact_mod_cast h1)]
  · intro h
    unfold check_duplicate
    rw [if_neg (by push_cast; linarith), if_neg (by push_cast; linarith)]
  · intro i e h
    unfold bestMatch at *
    rw [List.foldl_append]
    simp only [List.foldl_cons, List.foldl_nil]
    rw [if_neg (not_lt.2 h)]

/-- Witness for C1: concrete inputs exercising each classification branch and the
tie-keeps-first behaviour (`[3,4]` vs `[3,4]`: similarity 1; vs `[0,5]`: 0.8; vs
`[5,0]`: 0.6). -/
theorem check_duplicate_classification_witness :
    ((0.92 : ℝ) < (bestMatch [3,4] [("a", [3,4])]).1 ∧
      (check_duplicate [3,4] [("a", [3,4])]).match_type = MatchType.EXACT_DUP) ∧
    ((0.7 : ℝ) < (bestMatch [3,4] [("b", [0,5])]).1 ∧
      (bestMatch [3,4] [("b", [0,5])]).1 ≤ 0.92 ∧
      (check_duplicate [3,4] [("b", [0,5])]).match_type = MatchType.RELATED) ∧
    ((bestMatch [3,4] [("c", [5,0])]).1 ≤ 0.7 ∧
      (check_duplicate [3,4] [("c", [5,0])]).match_type = MatchType.NOVEL) ∧
    (cosine_similarity [3,4] [3,4] ≤ (bestMatch [3,4] [("a", [3,4])]).1 ∧
      bestMatch [3,4] ([("a", [3,4])] ++ [("d", [3,4])]) = bestMatch [3,4] [("a", [3,4])]) := by
  have hc1 : cosine_similarity [3,4] [3,4] = 1 := by
    rw [cosine_similarity_eval [3,4] [3,4] 5 5 (by norm_num) (by norm_num)
      (by norm_num [sumSq]) (by norm_num [sumSq])]
    norm_num [dot]
  have hc2 : cosine_similarity [3,4] [0,5] = 4/5 := by
    rw [cosine_similarity_eval [3,4] [0,5] 5 5 (by norm_num) (by norm_num)
      (by norm_num [sumSq]) (by norm_num [sumSq])]
    norm_num [dot]
  have hc3 : cosine_similarity [3,4] [5,0] = 3/5 := by
    rw [cosine_similarity_eval [3,4] [5,0] 5 5 (by norm_num) (by norm_num)
      (by norm_num [sumSq]) (by norm_num [sumSq])]
    norm_num [dot]
  have hb1 : bestMatch [3,4] [("a", [3,4])] = (1, some "a") := by
    unfold bestMatch
    simp only [List.foldl_cons, List.foldl_nil, hc1]
    norm_num
  have hb2 : bestMatch [3,4] [("b", [0,5])] = (4/5, some "b") := by
    unfold bestMatch
    simp only [List.foldl_cons, List.foldl_nil, hc2]
    norm_num
  have hb3 : bestMatch [3,4] [("c", [5,0])] = (3/5, some "c") := by
    unfold bestMatch
    simp only [List.foldl_cons, List.foldl_nil, hc3]
    norm_num
  have h1 : (0.92 : ℝ) < (bestMatch [3,4] [("a", [3,4])]).1 := by rw [hb1]; norm_num
  have h2a : (0.7 : ℝ) < (bestMatch [3,4] [("b", [0,5])]).1 := by rw [hb2]; norm_num
  have h2b : (bestMatch [3,4] [("b", [0,5])]).1 ≤ 0.92 := by rw [hb2]; norm_num
  have h3 : (bestMatch [3,4] [("c", [5,0])]).1 ≤ 0.7 := by rw [hb3]; norm_num
  have h4 : cosine_similarity [3,4] [3,4] ≤ (bestMatch [3,4] [("a", [3,4])]).1 := by
    rw [hb1, hc1]
  refine ⟨⟨h1, ?_⟩, ⟨h2a, h2b, ?_⟩, ⟨h3, ?_⟩, h4, ?_⟩
  · rw [((check_duplicate_classification [3,4] [("a", [3,4])]).1 h1).1]
  · rw [((check_duplicate_classification [3,4] [("b", [0,5])]).2.1 h2a h2b).1]
  · rw [(check_duplicate_classification [3,4] [("c", [5,0])]).2.2.1 h3]
  · exact (check_duplicate_classification [3,4] [("a", [3,4])]).2.2.2 "d" [3,4] h4

/- ## C10 -/

/-- C10: with an empty existing list, or one whose similarities to the candidate are
all `≤ 0`, `check_duplicate` returns NOVEL with no matched id and reported
similarity `0.0`; and the reported best similarity is never negative. -/
theorem check_duplicate_novel_base (emb : Vec) (existing : List (String × Vec))
    (h : ∀ p ∈ existing, cosine_similarity emb p.2 ≤ 0) :
    (check_duplicate emb existing = ⟨MatchType.NOVEL, none, 0⟩) ∧
    (check_duplicate emb [] = ⟨MatchType.NOVEL, none, 0⟩) ∧
    ∀ ex2 : List (String × Vec), 0 ≤ (check_duplicate emb ex2).similarity := by
  have hzero : ∀ (l : List (String × Vec)), bestMatch emb l = (0, none) →
      check_duplicate emb l = ⟨MatchType.NOVEL, none, 0⟩ := by
    intro l hl
    unfold check_duplicate
    rw [hl]
    norm_num
  refine ⟨hzero existing (bestMatch_all_nonpos emb existing h),
    hzero [] (by unfold bestMatch; simp), ?_⟩
  intro ex2
  rw [check_duplicate_similarity]
  exact bestMatch_nonneg emb ex2

/-- Witness for C10: candidate `[1,0]` against single existing embedding `[-1,0]`,
whose cosine similarity is `-1 ≤ 0`. -/
theorem check_duplicate_novel_base_witness :
    (∀ p ∈ [("a", [-1,0])], cosine_similarity [1,0] p.2 ≤ 0) ∧
    check_duplicate [1,0] [("a", [-1,0])] = ⟨MatchType.NOVEL, none, 0⟩ := by
  have hcos : cosine_similarity [1,0] [-1,0] = -1 := by
    rw [cosine_similarity_eval [1,0] [-1,0] 1 1 one_pos one_pos
      (by norm_num [sumSq]) (by norm_num [sumSq])]
    norm_num [dot]
  have h : ∀ p ∈ [("a", ([-1,0] : Vec))], cosine_similarity [1,0] p.2 ≤ 0 := by
    intro p hp
    simp only [List.mem_singleton] at hp
    subst hp
    rw [hcos]; norm_num
  exact ⟨h, (check_duplicate_novel_base [1,0] [("a", [-1,0])] h).1⟩

/- ## C5 -/

/-- C5: the importance updates keep importance in `[0,1]`: feedback clamps with
`MAX(0, MIN(·+δ, 1))` for any current value; the exact-duplicate boost
`MIN(·+0.1, 1)` stays in `[0,1]` for any stored (nonnegative) value; positive
feedback on 0.5 yields 0.6, negative feedback on 0.2 yields 0.0. -/
theorem importance_clamped (imp : ℚ) (pos : Bool) (h0 : 0 ≤ imp) :
    (0 ≤ feedbackImportance imp pos ∧ feedbackImportance imp pos ≤ 1) ∧
    (0 ≤ dupBoostImportance imp ∧ dupBoostImportance imp ≤ 1) ∧
    feedbackImportance 0.5 true = 0.6 ∧
    feedbackImportance 0.2 false = 0 := by
  refine ⟨⟨le_max_left _ _, max_le (by norm_num) (min_le_right _ _)⟩,
    ⟨le_min (by linarith) (by norm_num), min_le_right _ _⟩, ?_, ?_⟩ <;>
    norm_num [feedbackImportance, min_def, max_def]

/-- Witness for C5 at importance 0.5 with positive feedback. -/
theorem importance_clamped_witness :
    (0 : ℚ) ≤ 0.5 ∧ feedbackImportance 0.5 true = 0.6 :=
  ⟨by norm_num, (importance_clamped 0.5 true (by norm_num)).2.2.1⟩

/- ## C7 and C9 -/

/-- C7: `get_context_budget` returns the minimum of (total minus the 10% system
reserve minus conversation tokens minus the 10% response buffer) and the 15% cap,
each percentage truncated to an integer; in particular
`get_context_budget 100000 30000 = 15000`. -/
theorem get_context_budget_spec (total conv : ℕ) :
    get_context_budget total conv =
      min ((total : ℤ) - ⌊(total : ℚ) * 10 / 100⌋ - conv - ⌊(total : ℚ) * 10 / 100⌋)
        ⌊(total : ℚ) * 15 / 100⌋ ∧
    get_context_budget 100000 30000 = 15000 := by
  constructor
  · have h10 : ⌊(total : ℚ) * 10 / 100⌋ = ((total * 10 / 100 : ℕ) : ℤ) := by
      rw [show ((total : ℚ) * 10) = ((total * 10 : ℕ) : ℚ) by push_cast; ring,
        show ((100 : ℚ)) = ((100 : ℕ) : ℚ) by norm_num,
        Rat.floor_natCast_div_natCast]
      simp [Int.ofNat_div]
    have h15 : ⌊(total : ℚ) * 15 / 100⌋ = ((total * 15 / 100 : ℕ) : ℤ) := by
      rw [show ((total : ℚ) * 15) = ((total * 15 : ℕ) : ℚ) by push_cast; ring,
        show ((100 : ℚ)) = ((100 : ℕ) : ℚ) by norm_num,
        Rat.floor_natCast_div_natCast]
      simp [Int.ofNat_div]
    rw [h10, h15]
    rfl
  · decide

/-- C9: the budget is not clamped below at zero — whenever the conversation tokens
exceed total minus the two 10% reserves, the returned budget is the (negative)
remaining amount; in particular `get_context_budget 100000 90000 = -10000`. -/
theorem get_context_budget_negative (total conv : ℕ)
    (h : (total : ℤ) - (total * 10 / 100 : ℕ) - (total * 10 / 100 : ℕ) < conv) :
    get_context_budget total conv < 0 ∧
    get_context_budget total conv =
      (total : ℤ) - (total * 10 / 100 : ℕ) - conv - (total * 10 / 100 : ℕ) ∧
    get_context_budget 100000 90000 = -10000 := by
  have havail : ((total : ℤ) - (total * 10 / 100 : ℕ) - conv - (total * 10 / 100 : ℕ)) < 0 := by
    linarith
  have hmin : get_context_budget total conv =
      (total : ℤ) - (total * 10 / 100 : ℕ) - conv - (total * 10 / 100 : ℕ) := by
    unfold get_context_budget
    exact min_eq_left (le_trans havail.le (by positivity))
  exact ⟨hmin ▸ havail, hmin, by decide⟩

/-- Witness for C9 at `(100000, 90000)`. -/
theorem get_context_budget_negative_witness :
    ((100000 : ℤ) - (100000 * 10 / 100 : ℕ) - (100000 * 10 / 100 : ℕ) < 90000) ∧
    get_context_budget 100000 90000 < 0 :=
  ⟨by decide, (get_context_budget_negative 100000 90000 (by decide)).1⟩

/- ## Chunker (`memory/chunker.py`) -/

/-- Python `str.split()` with no argument: maximal non-whitespace runs, empties
dropped. `cur` holds the current word, reversed. -/
def pyWordsAux : List Char → List Char → List (List Char)
  | cur, [] => if cur = [] then [] else [cur.reverse]
  | cur, c :: rest =>
    if c.isWhitespace then
      if cur = [] then pyWordsAux [] rest else cur.reverse :: pyWordsAux [] rest
    else pyWordsAux (c :: cur) rest

/-- Python `text.split()`. -/
def pyWords (s : List Char) : List (List Char) := pyWordsAux [] s

/-- `len(text.split())` — the chunker's word count. -/
def wordCount (s : String) : ℕ := (pyWords s.data).length

/-- Python `str.lower()`, character-wise (`Char.toLower` folds exactly the ASCII
range, which is also SQLite's `LIKE` case fold). -/
def pyLower (s : String) : String := String.mk (s.data.map Char.toLower)

/-- Python `str.strip()`: drop leading and trailing whitespace. -/
def pyStrip (s : List Char) : List Char :=
  ((s.dropWhile Char.isWhitespace).reverse.dropWhile Char.isWhitespace).reverse

/-- The lookahead `(?=#{1,3}\s)` of the chunker's split regex: one to three `#`
characters followed by a whitespace character. -/
def isHeadingNext : List Char → Bool
  | c1 :: c2 :: rest =>
    if c1 = '#' then
      if c2.isWhitespace then true
      else if c2 = '#' then
        match rest with
        | c3 :: rest2 =>
          if c3.isWhitespace then true
          else if c3 = '#' then
            match rest2 with
            | c4 :: _ => c4.isWhitespace
            | [] => false
          else false
        | [] => false
      else false
    else false
  | _ => false

lemma dropWhileLengthLe (p : Char → Bool) (l : List Char) :
    (l.dropWhile p).length ≤ l.length := by
  induction l with
  | nil => simp [List.dropWhile]
  | cons a l ih =>
    rw [List.dropWhile_cons]
    split
    · exact le_trans ih (by simp)
    · simp

/-- `re.split(r'\n(?=#{1,3}\s)|\n\n+', text)` (chunker.py 70), scanned left to
right: a newline followed by a markdown heading splits (the heading is kept, the
newline consumed); a run of two or more newlines splits (the run is consumed).
`acc` holds the current part, reversed. -/
def splitAux (acc : List Char) : List Char → List (List Char)
  | [] => [acc.reverse]
  | c :: rest =>
    if c = '\n' then
      if isHeadingNext rest then acc.reverse :: splitAux [] rest
      else if rest.head? = some '\n' then
        acc.reverse :: splitAux [] (rest.dropWhile (fun ch => ch = '\n'))
      else splitAux ('\n' :: acc) rest
    else splitAux (c :: acc) rest
termination_by cs => cs.length
decreasing_by
  · simp
  · have := dropWhileLengthLe (fun ch => decide (ch = '\n')) rest
    simp only [List.length_cons]
    omega
  · simp
  · simp

/-- The cleaned list of parts (chunker.py 70-71): split, strip each part, drop
the empty ones. -/
def cleanedParts (s : List Char) : List (List Char) :=
  ((splitAux [] s).map pyStrip).filter (· ≠ [])

/-- The merge loop of `chunk_response` (chunker.py 74-79), rendered with the last
element of `merged` as an accumulator `cur`: while the accumulated fragment is
under 30 words the next part is appended to it (joined by a blank line),
otherwise it is emitted and the next part starts fresh. -/
def mergeSmallAux (cur : String) : List String → List String
  | [] => [cur]
  | p :: rest =>
    if wordCount cur < 30 then mergeSmallAux (cur ++ "\n\n" ++ p) rest
    else cur :: mergeSmallAux p rest

/-- The merge loop over the whole part list. -/
def mergeSmall : List String → List String
  | [] => []
  | p :: rest => mergeSmallAux p rest

/-- `chunker.chunk_response` (chunker.py 56-81). -/
def chunk_response (response_text : String) (threshold : ℕ := 200) : List String :=
  let word_count := wordCount response_text
  if word_count < threshold then [response_text]
  else
    let parts : List String := (cleanedParts response_text.data).map String.mk
    let merged := mergeSmall parts
    if merged = [] then [response_text] else merged

/- ## Chunker lemmas -/

lemma stringMk_data (s : String) : String.mk s.data = s := rfl

lemma mergeSmallAux_ne_nil (cur : String) (l : List String) :
    mergeSmallAux cur l ≠ [] := by
  induction l generalizing cur with
  | nil => simp [mergeSmallAux]
  | cons p rest ih =>
    rw [mergeSmallAux]
    split
    · exact ih _
    · simp

lemma mergeSmallAux_dropLast (cur : String) (l : List String) :
    ∀ s ∈ (mergeSmallAux cur l).dropLast, 30 ≤ wordCount s := by
  induction l generalizing cur with
  | nil => simp [mergeSmallAux]
  | cons p rest ih =>
    rw [mergeSmallAux]
    split
    · exact ih _
    · rename_i hge
      obtain ⟨x, xs, hx⟩ : ∃ x xs, mergeSmallAux p rest = x :: xs := by
        rcases h : mergeSmallAux p rest with _ | ⟨x, xs⟩
        · exact absurd h (mergeSmallAux_ne_nil p rest)
        · exact ⟨x, xs, rfl⟩
      rw [hx, List.dropLast_cons₂]
      intro s hs
      rcases List.mem_cons.1 hs with h | h
      · subst h; omega
      · exact ih p s (by rw [hx]; exact h)

/-- Blank-line join of a part list (used to state that the merge loop only glues
adjacent parts together with `"\n\n"`, preserving content and order). -/
def joinSep : List String → String
  | [] => ""
  | [x] => x
  | x :: l => x ++ "\n\n" ++ joinSep l

lemma joinSep_cons_cons (a b : String) (l : List String) :
    joinSep (a :: b :: l) = a ++ "\n\n" ++ joinSep (b :: l) := rfl

lemma mergeSmallAux_joinSep (cur : String) (l : List String) :
    joinSep (mergeSmallAux cur l) = joinSep (cur :: l) := by
  induction l generalizing cur with
  | nil => rfl
  | cons p rest ih =>
    rw [mergeSmallAux]
    split
    · rw [ih]
      cases rest with
      | nil => rfl
      | cons q qs =>
        rw [joinSep_cons_cons, joinSep_cons_cons, joinSep_cons_cons]
        simp [String.append_assoc]
    · obtain ⟨x, xs, hx⟩ : ∃ x xs, mergeSmallAux p rest = x :: xs := by
        rcases h : mergeSmallAux p rest with _ | ⟨x, xs⟩
        · exact absurd h (mergeSmallAux_ne_nil p rest)
        · exact ⟨x, xs, rfl⟩
      rw [hx, joinSep_cons_cons, ← hx, ih, joinSep_cons_cons]

lemma splitAux_no_newline (cs : List Char) (h : '\n' ∉ cs) :
    ∀ acc, splitAux acc cs = [acc.reverse ++ cs] := by
  induction cs with
  | nil => intro acc; simp [splitAux]
  | cons c rest ih =>
    intro acc
    have hc : ¬(c = '\n') := fun hc => h (hc ▸ List.mem_cons_self c rest)
    rw [splitAux, if_neg hc, ih (fun hr => h (List.mem_cons_of_mem _ hr))]
    simp

lemma dropWhile_cons_of_neg {p : Char → Bool} {c : Char} {l : List Char}
    (h : ¬p c = true) : (c :: l).dropWhile p = c :: l := by
  rw [List.dropWhile_cons, if_neg h]

lemma splitAux_blank_sep (A B : List Char) (hA : '\n' ∉ A) (hB : '\n' ∉ B) :
    ∀ acc, splitAux acc (A ++ '\n' :: '\n' :: B) = [acc.reverse ++ A, B] := by
  induction A with
  | nil =>
    intro acc
    have hhead : isHeadingNext ('\n' :: B) = false := by
      cases B with
      | nil => rfl
      | cons b bs => simp [isHeadingNext]
    have hdrop : ('\n' :: B).dropWhile (fun ch => ch = '\n') = B := by
      rw [List.dropWhile_cons, if_pos (by simp)]
      cases B with
      | nil => rfl
      | cons b bs =>
        exact dropWhile_cons_of_neg (by
          simp only [decide_eq_true_eq]
          exact fun hb => hB (hb ▸ List.mem_cons_self b bs))
    rw [List.nil_append, splitAux, if_pos rfl, hhead]
    simp only [Bool.false_eq_true, if_false, List.head?_cons, if_pos rfl, hdrop]
    rw [splitAux_no_newline B hB []]
    simp
  | cons a A' ih =>
    intro acc
    have ha : ¬(a = '\n') := fun hc => hA (hc ▸ List.mem_cons_self a A')
    rw [List.cons_append, splitAux, if_neg ha,
      ih (fun hr => hA (List.mem_cons_of_mem _ hr))]
    simp

lemma splitAux_heading_sep (A B : List Char) (hA : '\n' ∉ A) (hB : '\n' ∉ B)
    (hH : isHeadingNext B = true) :
    ∀ acc, splitAux acc (A ++ '\n' :: B) = [acc.reverse ++ A, B] := by
  induction A with
  | nil =>
    intro acc
    rw [List.nil_append, splitAux, if_pos rfl, hH, if_pos rfl,
      splitAux_no_newline B hB []]
    simp
  | cons a A' ih =>
    intro acc
    have ha : ¬(a = '\n') := fun hc => hA (hc ▸ List.mem_cons_self a A')
    rw [List.cons_append, splitAux, if_neg ha,
      ih (fun hr => hA (List.mem_cons_of_mem _ hr))]
    simp

/- ## C3 -/

/-- C3 (amended): a response under the 200-word threshold is returned unsplit as a
single chunk; at or above it the response is split on markdown-heading or
blank-line boundaries (parts stripped, empties dropped); the merge pass then
appends each following part onto the accumulated fragment whenever that
accumulated fragment is under 30 words — an under-30 fragment absorbs its
successors, it is not merged into its predecessor — so in the output every
fragment except possibly the last has at least 30 words, and fragments are only
ever glued to adjacent ones with a blank line, preserving content and order; if
splitting yields nothing, the whole response is returned as one chunk. -/
theorem chunk_response_amended :
    (∀ r : String, wordCount r < 200 → chunk_response r = [r]) ∧
    (∀ r : String, 200 ≤ wordCount r → cleanedParts r.data = [] →
      chunk_response r = [r]) ∧
    (∀ r : String, 200 ≤ wordCount r → cleanedParts r.data ≠ [] →
      chunk_response r = mergeSmall ((cleanedParts r.data).map String.mk)) ∧
    (∀ parts : List String, ∀ s ∈ (mergeSmall parts).dropLast, 30 ≤ wordCount s) ∧
    (∀ parts : List String, joinSep (mergeSmall parts) = joinSep parts) ∧
    (∀ A B : List Char, '\n' ∉ A → '\n' ∉ B →
      splitAux [] (A ++ '\n' :: '\n' :: B) = [A, B]) ∧
    (∀ A B : List Char, '\n' ∉ A → '\n' ∉ B → isHeadingNext B = true →
      splitAux [] (A ++ '\n' :: B) = [A, B]) := by
  refine ⟨?_, ?_, ?_, ?_, ?_, ?_, ?_⟩
  · intro r h
    unfold chunk_response
    rw [if_pos h]
  · intro r h hcl
    unfold chunk_response
    rw [if_neg (not_lt.2 h)]
    simp [hcl, mergeSmall]
  · intro r h hcl
    unfold chunk_response
    rw [if_neg (not_lt.2 h)]
    rcases hc : cleanedParts r.data with _ | ⟨p, rest⟩
    · exact absurd hc hcl
    · simp only [List.map_cons]
      rw [if_neg (by rw [mergeSmall]; exact mergeSmallAux_ne_nil _ _)]
  · intro parts
    cases parts with
    | nil => simp [mergeSmall]
    | cons p rest => rw [mergeSmall]; exact mergeSmallAux_dropLast p rest
  · intro parts
    cases parts with
    | nil => rfl
    | cons p rest => rw [mergeSmall]; exact mergeSmallAux_joinSep p rest
  · intro A B hA hB
    rw [splitAux_blank_sep A B hA hB []]
    simp
  · intro A B hA hB hH
    rw [splitAux_heading_sep A B hA hB hH []]
    simp

/-- Witness for C3: a short response is returned unsplit; a blank line between two
newline-free pieces splits there. -/
theorem chunk_response_amended_witness :
    (wordCount "short answer" < 200 ∧ chunk_response "short answer" = ["short answer"]) ∧
    ('\n' ∉ "ab".data ∧ '\n' ∉ "cd".data ∧
      splitAux [] ("ab".data ++ '\n' :: '\n' :: "cd".data) = ["ab".data, "cd".data]) :=
  ⟨⟨by decide, chunk_response_amended.1 "short answer" (by decide)⟩,
    by decide, by decide,
    chunk_response_amended.2.2.2.2.2.1 "ab".data "cd".data (by decide) (by decide)⟩

/-- A 200-word single-paragraph text (`"a a … a"`). -/
def cexA : String := String.mk ((List.replicate 199 ['a', ' ']).flatten ++ ['a'])

/-- A 2-word trailing fragment. -/
def cexB : String := "tiny bit"

/-- `cexA` and `cexB` separated by a blank line: 202 words in total. -/
def cexText : String := cexA ++ "\n\n" ++ cexB

/-- C3 counterexample: on a 202-word response consisting of a 200-word paragraph,
a blank line, and a 2-word fragment, `chunk_response` returns both fragments
separately — the trailing fragment has fewer than 30 words and is *not* merged
into the preceding fragment, because the merge loop checks the word count of the
preceding accumulated fragment (here 200), not of the small fragment itself. -/
theorem chunk_response_cex :
    200 ≤ wordCount cexText ∧
    chunk_response cexText = [cexA, cexB] ∧
    wordCount cexB < 30 ∧
    (chunk_response cexText).length = 2 := by
  have hwc : wordCount cexText = 202 := by decide
  have hA : '\n' ∉ cexA.data := by decide
  have hB : '\n' ∉ cexB.data := by decide
  have hsplit : splitAux [] cexText.data = [cexA.data, cexB.data] := by
    rw [(by decide : cexText.data = cexA.data ++ '\n' :: '\n' :: cexB.data)]
    simpa using splitAux_blank_sep cexA.data cexB.data hA hB []
  have hsA : pyStrip cexA.data = cexA.data := by decide
  have hsB : pyStrip cexB.data = cexB.data := by decide
  have hclean : cleanedParts cexText.data = [cexA.data, cexB.data] := by
    unfold cleanedParts
    rw [hsplit]
    simp only [List.map_cons, List.map_nil, hsA, hsB]
    simp [List.filter, (by decide : cexA.data ≠ []), (by decide : cexB.data ≠ [])]
  have hA30 : (wordCount cexA < 30) = False := by
    simp only [eq_iff_iff, iff_false]
    decide
  have hmerge : mergeSmall [cexA, cexB] = [cexA, cexB] := by
    rw [mergeSmall, mergeSmallAux, if_neg (by rw [hA30]; exact id), mergeSmallAux]
  have hfinal : chunk_response cexText = [cexA, cexB] := by
    unfold chunk_response
    rw [if_neg (by rw [hwc]; norm_num)]
    simp only [hclean, List.map_cons, List.map_nil, stringMk_data]
    rw [hmerge]
    simp
  exact ⟨by rw [hwc]; norm_num, hfinal, by decide, by rw [hfinal]; rfl⟩

/- ## Data model (persistent schema, spec §6; `memory/schemas.py` is only
declared, so the three tables are modelled as lists of rows) -/

/-- The `links` sub-map stamped into chunk metadata by `stamp_metadata`
(chunker.py 95-109): `response_ids` on the user chunk (the JSON-encoded id list,
serialisation modelled as the list itself), `query_id` and `siblings` on
response chunks. -/
structure LinksMap where
  response_ids : Option (List String) := none
  query_id : Option String := none
  siblings : Option (List String) := none
deriving DecidableEq, Repr

/-- The metadata dict built by `stamp_metadata` (chunker.py 93-111). `mtype` is
the `"type"` key; `chunk_pos` the `"chunk"` key (`"i/total"`). -/
structure ChunkMeta where
  mtype : String
  timestamp : ℕ
  turn_id : String
  tags : List String
  links : LinksMap
  user : Option String := none
  agent : Option String := none
  chunk_pos : Option String := none
deriving DecidableEq, Repr

/-- Value of the `metadata` column of `memories`: stamped chunk metadata
(`json.dumps(chunk.metadata)` in `_ingest_inner`), the consolidation marker
(`str({"consolidated_from": [...]})` in `run_consolidation`), or empty.
JSON round-tripping is modelled as the identity. -/
inductive MetaJson
  | chunkMeta (m : ChunkMeta)
  | consolidatedFrom (ids : List String)
  | empty
deriving DecidableEq, Repr

/-- A row of the `memories` table. -/
structure MemoryRow where
  id : String
  content : String
  embedding : Option Vec
  tier : String
  importance : ℚ
  tags : Option String
  source_agent : String
  metadata : MetaJson
  created_at : ℕ
  updated_at : ℕ
  access_count : ℕ
deriving DecidableEq, Repr

/-- A row of the `memory_links` table. -/
structure LinkRow where
  memory_id_a : String
  memory_id_b : String
  relation_type : String
  strength : ℚ
deriving DecidableEq, Repr

/-- A row of the `knowledge_cache` table. -/
structure FactRow where
  id : String
  fact : String
  embedding : Option Vec
  source : String
  verified_by : String
  verified_at : ℕ
  confidence : ℚ
  metadata : String
deriving DecidableEq, Repr

/-- The persistent store: the `memories` and `memory_links` tables, rows in
insertion order. -/
structure Store where
  memories : List MemoryRow
  links : List LinkRow
deriving DecidableEq, Repr

/- ## Scoring (`memory/scoring.py`) -/

/-- `STRATEGY_WEIGHTS.get(strategy, STRATEGY_WEIGHTS["balanced"])`
(scoring.py 9-13, 54): (semantic, recency, importance). -/
def strategyWeights (strategy : String) : ℚ × ℚ × ℚ :=
  if strategy = "balanced" then (0.4, 0.3, 0.3)
  else if strategy = "recency" then (0.3, 0.5, 0.2)
  else if strategy = "importance" then (0.3, 0.2, 0.5)
  else (0.4, 0.3, 0.3)

/-- `SIGNAL_WEIGHTS.get(s, 0.3)` (scoring.py 16-25, 43). -/
def signalWeight (s : String) : ℚ :=
  if s = "user_correction" then 0.9
  else if s = "user_preference" then 0.85
  else if s = "decision" then 0.8
  else if s = "error_correction" then 0.8
  else if s = "commitment" then 0.75
  else if s = "repeated_topic" then 0.6
  else if s = "technical_detail" then 0.5
  else if s = "general" then 0.2
  else 0.3

/-- `scoring.compute_importance_score` (scoring.py 39-44): the maximum signal
weight, capped at 1.0; `SIGNAL_WEIGHTS["general"] = 0.2` when no signal given. -/
def compute_importance_score (signals : List String) : ℚ :=
  match signals with
  | [] => signalWeight "general"
  | s :: rest => min ((rest.map signalWeight).foldl max (signalWeight s)) 1

/-- `scoring.compute_recency_score` (scoring.py 28-36): `created_at` and `now` are
clock values in seconds (UTC); the age in days is clamped at 0. -/
noncomputable def compute_recency_score (created_at now : ℕ)
    (half_life_days : ℝ := 7) : ℝ :=
  let days_old : ℝ := max (((now : ℝ) - (created_at : ℝ)) / 86400) 0
  Real.exp (-0.693 * days_old / half_life_days)

/-- `scoring.compute_composite_score` (scoring.py 47-55). -/
noncomputable def compute_composite_score (semantic_sim recency : ℝ)
    (importance : ℚ) (strategy : String) : ℝ :=
  let w := strategyWeights strategy
  (w.1 : ℝ) * semantic_sim + (w.2.1 : ℝ) * recency + (w.2.2 : ℝ) * (importance : ℝ)

/- ## SQL `LIKE` (the tag filter and the keyword fallback build
`LIKE '%...%'` conditions from raw tokens) -/

/-- SQLite `LIKE` pattern matching on case-folded character lists: `%` matches any
sequence, `_` matches exactly one character, anything else matches itself. -/
def likeMatch : List Char → List Char → Bool
  | [], cs => cs.isEmpty
  | p :: ps, cs =>
    if p = '%' then
      likeMatch ps cs ||
        (match cs with
         | [] => false
         | _ :: cs' => likeMatch (p :: ps) cs')
    else
      match cs with
      | [] => false
      | c :: cs' => if p = '_' then likeMatch ps cs' else p = c && likeMatch ps cs'
termination_by ps cs => (cs.length, ps.length)

/-- `column LIKE '%w%'`: SQLite's default `LIKE` is case-insensitive on the ASCII
range; `pyLower` (defined with the chunker) is exactly that ASCII fold. -/
def likeContains (column w : String) : Bool :=
  likeMatch ('%' :: ((pyLower w).data ++ ['%'])) (pyLower column).data

/- ## Retrieval (`memory/retrieval.py`) -/

/-- A result dict of `follow_links` (retrieval.py 109-113). -/
structure LinkedMem where
  id : String
  content : String
  importance : ℚ
  tags : Option String
  relation : String
  link_strength : ℚ
deriving DecidableEq, Repr

/-- A result dict of `retrieve_memories` (retrieval.py 59-70), with the
`linked_memories` key optionally added by `MemoryEngine.retrieve`. -/
structure RetrievedMem where
  id : String
  content : String
  tier : String
  importance : ℚ
  tags : Option String
  created_at : ℕ
  score : ℝ
  semantic_similarity : ℝ
  source_agent : String
  metadata : MetaJson
  linked_memories : Option (List LinkedMem) := none

/-- The candidate rows of `retrieve_memories` (retrieval.py 25-34): all of
`memories`, or — when a non-empty tag list is given (Python's `if tags:`) — the
rows whose `tags` column matches `tags LIKE '%t%'` for some requested tag (a
`NULL` column never matches). -/
def retrieveRows (st : Store) (tags : Option (List String)) : List MemoryRow :=
  match tags with
  | some (t :: ts) =>
      st.memories.filter (fun (r : MemoryRow) =>
        match r.tags with
        | some field => (t :: ts).any (fun tag => likeContains field tag)
        | none => false)
  | _ => st.memories

/-- The scoring loop of `retrieve_memories` (retrieval.py 36-70): rows without an
embedding are skipped; each remaining row is paired with its composite score. -/
noncomputable def retrieveScored (query_embedding : Vec) (strategy : String)
    (now : ℕ) (rows : List MemoryRow) : List (ℝ × RetrievedMem) :=
  rows.filterMap (fun (row : MemoryRow) =>
    match row.embedding with
    | none => none
    | some emb =>
      let semantic_sim := cosine_similarity query_embedding emb
      let recency := compute_recency_score row.created_at now
      let score := compute_composite_score semantic_sim recency row.importance strategy
      some (score,
        { id := row.id, content := row.content, tier := row.tier,
          importance := row.importance, tags := row.tags,
          created_at := row.created_at, score := score,
          semantic_similarity := semantic_sim,
          source_agent := row.source_agent, metadata := row.metadata }))

open Classical in
/-- The result list of `retrieve_memories` (retrieval.py 72-75): stable descending
sort by score (Python's `list.sort(key=..., reverse=True)`), top-`limit`. -/
noncomputable def retrieveResults (query_embedding : Vec) (st : Store)
    (strategy : String) (limit : ℕ) (tags : Option (List String)) (now : ℕ) :
    List RetrievedMem :=
  (((retrieveScored query_embedding strategy now (retrieveRows st tags)).mergeSort
    (fun a b => decide (b.1 ≤ a.1))).take limit).map (·.2)

/-- `retrieval.retrieve_memories` (retrieval.py 17-83): compute the ranked
top-`limit` results, then bump the access count of exactly the returned rows
(`UPDATE ... SET access_count = access_count + 1, updated_at = CURRENT_TIMESTAMP
WHERE id = ?`, one update per returned result). Returns the result list and the
updated store. -/
noncomputable def retrieve_memories (query_embedding : Vec) (st : Store)
    (strategy : String) (limit : ℕ) (tags : Option (List String)) (now : ℕ) :
    List RetrievedMem × Store :=
  let results := retrieveResults query_embedding st strategy limit tags now
  let updated := results.foldl
    (fun ms r => ms.map (fun m => if m.id = r.id then
      { m with access_count := m.access_count + 1, updated_at := now } else m))
    st.memories
  (results, { st with memories := updated })

/-- The inner loop of one BFS round of `follow_links` (retrieval.py 94-113):
process each frontier id in order; for each, scan `memory_links` for rows
touching it (`WHERE memory_id_a = ? OR memory_id_b = ?`), mark unvisited
neighbours visited, queue them, and collect the fetched rows; a neighbour whose
row no longer exists is still marked visited but yields no result. Returns the
final visited set, the next frontier, and the collected results. -/
def followRound (st : Store) : List String → List String →
    List String × List String × List LinkedMem
  | visited, [] => (visited, [], [])
  | visited, mid :: rest =>
    let rows := st.links.filter
      (fun l => decide (l.memory_id_a = mid ∨ l.memory_id_b = mid))
    let step := rows.foldl
      (fun (acc : List String × List String × List LinkedMem) row =>
        let linked_id := if row.memory_id_a = mid then row.memory_id_b
          else row.memory_id_a
        if linked_id ∈ acc.1 then acc
        else
          let visited' := acc.1 ++ [linked_id]
          let next' := acc.2.1 ++ [linked_id]
          match st.memories.find? (fun m => decide (m.id = linked_id)) with
          | some mem =>
            (visited', next', acc.2.2 ++
              [{ id := mem.id, content := mem.content,
                 importance := mem.importance, tags := mem.tags,
                 relation := row.relation_type, link_strength := row.strength }])
          | none => (visited', next', acc.2.2))
      (visited, [], [])
    let tail := followRound st step.1 rest
    (tail.1, step.2.1 ++ tail.2.1, step.2.2 ++ tail.2.2)

/-- The depth loop of `follow_links` (retrieval.py 92-114). -/
def followLinksGo (st : Store) : ℕ → List String → List String → List LinkedMem
  | 0, _, _ => []
  | d + 1, visited, frontier =>
    let step := followRound st visited frontier
    step.2.2 ++ followLinksGo st d step.1 step.2.1

/-- `retrieval.follow_links` (retrieval.py 86-116): BFS over `memory_links` for
`depth` rounds starting from `memory_id`, never revisiting a node, tolerating
links whose target row was deleted. -/
def follow_links (memory_id : String) (st : Store) (depth : ℕ) : List LinkedMem :=
  followLinksGo st depth [memory_id] [memory_id]

/- ## Knowledge cache (`memory/knowledge_cache.py`) -/

/-- A result dict of `knowledge_cache.lookup_facts` (knowledge_cache.py 55-60). -/
structure FactResult where
  id : String
  fact : String
  confidence : ℚ
  similarity : ℝ

open Classical in
/-- `knowledge_cache.lookup_facts` (knowledge_cache.py 35-63): the most recent 500
facts with an embedding (`ORDER BY verified_at DESC LIMIT 500`, modelled as a
stable descending sort), scored by cosine similarity, sorted descending, top
`limit` returned. -/
noncomputable def kc_lookup_facts (query_embedding : Vec) (facts : List FactRow)
    (limit : ℕ) : List FactResult :=
  let rows := ((facts.filter (fun f => f.embedding.isSome)).mergeSort
    (fun a b => decide (b.verified_at ≤ a.verified_at))).take 500
  let scored : List (ℝ × FactResult) := rows.map (fun (row : FactRow) =>
    let sim := cosine_similarity query_embedding (row.embedding.getD [])
    (sim,
      { id := row.id, fact := row.fact, confidence := row.confidence,
        similarity := sim }))
  ((scored.mergeSort (fun a b => decide (b.1 ≤ a.1))).take limit).map (·.2)

/- ## Keyword fallback (`MemoryEngine._keyword_search`, engine.py 223-234) -/

/-- `query.lower().split()[:5]` (engine.py 225): lowercase, split on whitespace
runs, keep at most 5 words. -/
def kwWords (query : String) : List String :=
  ((pyWords (pyLower query).data).map String.mk).take 5

/-- `MemoryEngine._keyword_search`: up to `limit` rows whose `content` satisfies
`content LIKE '%w%'` for at least one of the query words; `[]` when the query
has no words. -/
def keyword_search (memories : List MemoryRow) (query : String) (limit : ℕ) :
    List MemoryRow :=
  let words := kwWords query
  if words = [] then []
  else
    (memories.filter (fun r => words.any (fun w => likeContains r.content w))).take
      limit

/-- Modelled from the spec: the keyword fallback as the spec words it — rows whose
content contains one of the query words as a *case-insensitive substring*,
capped at `limit`. Stated for comparison with `keyword_search`. -/
def keyword_search_spec (memories : List MemoryRow) (query : String) (limit : ℕ) :
    List MemoryRow :=
  let words := kwWords query
  if words = [] then []
  else
    (memories.filter (fun r =>
      words.any (fun w => decide ((pyLower w).data <:+: (pyLower r.content).data)))).take
      limit

/- ## `MemoryEngine.retrieve` (engine.py 178-221) -/

/-- An element of the list returned by `MemoryEngine.retrieve`: a fact entry
(`{"type": "fact", **f}`), a scored memory, or a keyword-fallback row (the
columns selected at engine.py 231). -/
inductive RetEntry
  | fact (f : FactResult)
  | memory (m : RetrievedMem)
  | keywordRow (id content : String) (importance : ℚ) (tags : Option String)
      (created_at : ℕ)

open Classical in
/-- `MemoryEngine.retrieve`. External failures are injected as parameters:
`embed_result` is the `embedder.embed(query)` call (`.error` = the exception
caught at engine.py 188), `kw_fetch_ok` says whether the fallback's database
read succeeds (its exception is caught at engine.py 192 and yields `[]`),
`kc_ok` whether the knowledge-cache lookup succeeds (caught at engine.py 199,
degrading to no facts), and `main_ok` whether the rest of the main path's
database work succeeds (caught at engine.py 219, yielding `[]`). The function is
total: every failure combination returns a plain list. -/
noncomputable def engine_retrieve (embed_result : Except String Vec)
    (kw_fetch_ok kc_ok main_ok : Bool) (st : Store) (facts : List FactRow)
    (query strategy : String) (limit : ℕ) (tags : Option (List String))
    (now : ℕ) : List RetEntry :=
  match embed_result with
  | .error _ =>
    if kw_fetch_ok then
      (keyword_search st.memories query limit).map (fun r =>
        .keywordRow r.id r.content r.importance r.tags r.created_at)
    else []
  | .ok query_embedding =>
    if main_ok then
      let factsFound := if kc_ok then kc_lookup_facts query_embedding facts 2 else []
      let pair := retrieve_memories query_embedding st strategy limit tags now
      let memories := pair.1.enum.map (fun (p : ℕ × RetrievedMem) =>
        if p.1 < 3 then
          { p.2 with linked_memories := some (follow_links p.2.id pair.2 1) }
        else p.2)
      let results :=
        (factsFound.filter (fun f =>
          decide ((0.7 : ℚ) ≤ f.confidence) && decide ((0.5 : ℝ) < f.similarity))).map
            RetEntry.fact
        ++ memories.map RetEntry.memory
      results.take limit
    else []

/- ## `LIKE` versus substring containment -/

lemma likeMatch_nil (cs : List Char) : likeMatch [] cs = cs.isEmpty := by
  rw [likeMatch.eq_def]

lemma likeMatch_percent_nil (ps : List Char) :
    likeMatch ('%' :: ps) [] = likeMatch ps [] := by
  rw [likeMatch.eq_def]
  dsimp only
  simp

lemma likeMatch_percent_cons (ps : List Char) (c : Char) (cs : List Char) :
    likeMatch ('%' :: ps) (c :: cs) =
      (likeMatch ps (c :: cs) || likeMatch ('%' :: ps) cs) := by
  rw [likeMatch.eq_def]
  dsimp only
  rw [if_pos rfl]

lemma likeMatch_lit_nil (p : Char) (ps : List Char) (hp : ¬p = '%') :
    likeMatch (p :: ps) [] = false := by
  rw [likeMatch.eq_def]
  dsimp only
  rw [if_neg hp]

lemma likeMatch_lit_cons (p : Char) (ps : List Char) (c : Char) (cs : List Char)
    (hp : ¬p = '%') :
    likeMatch (p :: ps) (c :: cs) =
      if p = '_' then likeMatch ps cs else p = c && likeMatch ps cs := by
  rw [likeMatch.eq_def]
  dsimp only
  rw [if_neg hp]

lemma likeMatch_percent_iff (ps cs : List Char) :
    likeMatch ('%' :: ps) cs = true ↔ ∃ n, likeMatch ps (cs.drop n) = true := by
  induction cs with
  | nil =>
    rw [likeMatch_percent_nil]
    constructor
    · intro h
      exact ⟨0, by simpa using h⟩
    · rintro ⟨n, hn⟩
      simpa using hn
  | cons c cs' ih =>
    rw [likeMatch_percent_cons]
    simp only [Bool.or_eq_true]
    constructor
    · rintro (h | h)
      · exact ⟨0, h⟩
      · obtain ⟨n, hn⟩ := ih.1 h
        exact ⟨n + 1, by simpa using hn⟩
    · rintro ⟨n, hn⟩
      cases n with
      | zero => exact Or.inl (by simpa using hn)
      | succ m => exact Or.inr (ih.2 ⟨m, by simpa using hn⟩)

lemma likeMatch_append_lit (w ps : List Char) (hw : ∀ c ∈ w, c ≠ '%' ∧ c ≠ '_') :
    ∀ cs, (likeMatch (w ++ ps) cs = true ↔
      ∃ cs', cs = w ++ cs' ∧ likeMatch ps cs' = true) := by
  induction w with
  | nil =>
    intro cs
    simp
  | cons a w' ih =>
    intro cs
    have ha := hw a (List.mem_cons_self a w')
    cases cs with
    | nil =>
      rw [List.cons_append, likeMatch_lit_nil a (w' ++ ps) ha.1]
      simp
    | cons c cs2 =>
      rw [List.cons_append, likeMatch_lit_cons a (w' ++ ps) c cs2 ha.1, if_neg ha.2]
      simp only [Bool.and_eq_true, decide_eq_true_eq]
      rw [ih (fun c hc => hw c (List.mem_cons_of_mem _ hc)) cs2]
      constructor
      · rintro ⟨rfl, cs', rfl, h⟩
        exact ⟨cs', rfl, h⟩
      · rintro ⟨cs', heq, h⟩
        rw [List.cons_append] at heq
        injection heq with h1 h2
        exact ⟨h1.symm, cs', h2, h⟩

lemma likeMatch_percent_end (cs : List Char) : likeMatch ['%'] cs = true := by
  induction cs with
  | nil => rw [likeMatch_percent_nil]; simp [likeMatch_nil]
  | cons c cs' ih => rw [likeMatch_percent_cons]; simp [ih]

/-- For a metacharacter-free word `w`, `LIKE '%w%'` is exactly infix
(substring) containment. -/
lemma likeMatch_infix_iff (w cs : List Char) (hw : ∀ c ∈ w, c ≠ '%' ∧ c ≠ '_') :
    (likeMatch ('%' :: (w ++ ['%'])) cs = true ↔ w <:+: cs) := by
  rw [likeMatch_percent_iff]
  constructor
  · rintro ⟨n, hn⟩
    rw [likeMatch_append_lit w ['%'] hw] at hn
    obtain ⟨cs', heq, _⟩ := hn
    refine ⟨cs.take n, cs', ?_⟩
    rw [List.append_assoc, ← heq, List.take_append_drop]
  · rintro ⟨s, t, rfl⟩
    refine ⟨s.length, ?_⟩
    rw [likeMatch_append_lit w ['%'] hw]
    refine ⟨t, ?_, likeMatch_percent_end t⟩
    rw [List.append_assoc, List.drop_left]

lemma likeContains_substring (column w : String)
    (hw : ∀ c ∈ (pyLower w).data, c ≠ '%' ∧ c ≠ '_') :
    (likeContains column w = true ↔ (pyLower w).data <:+: (pyLower column).data) := by
  unfold likeContains
  exact likeMatch_infix_iff _ _ hw

/- ## C2 -/

/-- C2 (amended): `MemoryEngine.retrieve` never raises — it is a total function
into a plain result list. If embedding the query fails it degrades to the
keyword search, which lowercases the query, takes up to 5 whitespace-separated
words and returns at most `limit` rows whose content matches `LIKE '%w%'`
(case-insensitive; `%` and `_` in a word act as SQL wildcards, so for
metacharacter-free words this is exactly case-insensitive substring
containment); if the fallback's database read also fails, retrieve returns
the empty list. -/
theorem engine_retrieve_fallback (e : String) (kc_ok main_ok : Bool) (st : Store)
    (facts : List FactRow) (query strategy : String) (limit : ℕ)
    (tags : Option (List String)) (now : ℕ)
    (hw : ∀ w ∈ kwWords query, ∀ c ∈ (pyLower w).data, c ≠ '%' ∧ c ≠ '_') :
    (engine_retrieve (.error e) true kc_ok main_ok st facts query strategy limit
        tags now
      = (keyword_search st.memories query limit).map (fun r =>
          .keywordRow r.id r.content r.importance r.tags r.created_at)) ∧
    (engine_retrieve (.error e) false kc_ok main_ok st facts query strategy limit
        tags now = []) ∧
    ((keyword_search st.memories query limit).length ≤ limit) ∧
    (∀ r ∈ keyword_search st.memories query limit,
      r ∈ st.memories ∧ ∃ w ∈ kwWords query, likeContains r.content w = true) ∧
    (keyword_search st.memories query limit
      = keyword_search_spec st.memories query limit) := by
  refine ⟨rfl, rfl, ?_, ?_, ?_⟩
  · by_cases hwq : kwWords query = []
    · simp [keyword_search, hwq]
    · simp only [keyword_search, if_neg hwq]
      exact List.length_take_le _ _
  · intro r hr
    by_cases hwq : kwWords query = []
    · simp [keyword_search, hwq] at hr
    · simp only [keyword_search, if_neg hwq] at hr
      have hr' := List.take_subset _ _ hr
      rw [List.mem_filter] at hr'
      refine ⟨hr'.1, ?_⟩
      simpa using List.any_eq_true.1 hr'.2
  · by_cases hwq : kwWords query = []
    · simp [keyword_search, keyword_search_spec, hwq]
    · simp only [keyword_search, keyword_search_spec, if_neg hwq]
      congr 1
      apply List.filter_congr
      intro r _
      rw [Bool.eq_iff_iff]
      simp only [List.any_eq_true]
      constructor
      · rintro ⟨w, hwin, hlike⟩
        exact ⟨w, hwin, by
          rw [decide_eq_true_eq]
          exact (likeContains_substring r.content w (hw w hwin)).1 hlike⟩
      · rintro ⟨w, hwin, hsub⟩
        rw [decide_eq_true_eq] at hsub
        exact ⟨w, hwin, (likeContains_substring r.content w (hw w hwin)).2 hsub⟩

/-- Witness for C2 at a wildcard-free query on an empty store, exercising both
fallback branches. -/
theorem engine_retrieve_fallback_witness :
    (∀ w ∈ kwWords "oauth python", ∀ c ∈ (pyLower w).data, c ≠ '%' ∧ c ≠ '_') ∧
    engine_retrieve (.error "down") false true true ⟨[], []⟩ []
      "oauth python" "balanced" 5 none 0 = [] ∧
    keyword_search ([] : List MemoryRow) "oauth python" 5
      = keyword_search_spec [] "oauth python" 5 := by
  have hw : ∀ w ∈ kwWords "oauth python", ∀ c ∈ (pyLower w).data, c ≠ '%' ∧ c ≠ '_' := by
    decide
  refine ⟨hw, ?_, ?_⟩
  · exact (engine_retrieve_fallback "down" true true ⟨[], []⟩ []
      "oauth python" "balanced" 5 none 0 hw).2.1
  · exact (engine_retrieve_fallback "down" true true ⟨[], []⟩ []
      "oauth python" "balanced" 5 none 0 hw).2.2.2.2

/-- A store row whose content is `"xyz"`. -/
def kwRec : MemoryRow :=
  { id := "m1", content := "xyz", embedding := none, tier := "short_term",
    importance := 0.5, tags := none, source_agent := "brain",
    metadata := .empty, created_at := 0, updated_at := 0, access_count := 0 }

/-- C2 counterexample: with a failing embedder, query `"x_z"` and a store holding
one record with content `"xyz"`, the keyword fallback *returns* that record —
the query word is pasted into `LIKE '%x_z%'`, where `_` matches any single
character — even though `"x_z"` is not a substring of `"xyz"`; the fallback is
LIKE-pattern matching, not the claimed plain substring containment. -/
theorem engine_retrieve_kw_cex :
    engine_retrieve (.error "no embedder") true true true ⟨[kwRec], []⟩ []
        "x_z" "balanced" 5 none 0
      = [.keywordRow "m1" "xyz" 0.5 none 0] ∧
    ¬ ((pyLower "x_z").data <:+: (pyLower "xyz").data) := by
  have hwords : kwWords "x_z" = ["x_z"] := by decide
  have hlike : likeContains "xyz" "x_z" = true := by
    unfold likeContains
    rw [(by decide : (pyLower "x_z").data = ['x', '_', 'z']),
      (by decide : (pyLower "xyz").data = ['x', 'y', 'z'])]
    simp [likeMatch]
  have hks : keyword_search [kwRec] "x_z" 5 = [kwRec] := by
    simp [keyword_search, hwords, kwRec, hlike]
  constructor
  · show (keyword_search (Store.mk [kwRec] []).memories "x_z" 5).map _ = _
    rw [show (Store.mk [kwRec] []).memories = [kwRec] from rfl, hks]
    rfl
  · decide

/- ## C8 -/

lemma foldl_bump_eq_map (now : ℕ) (rs : List RetrievedMem) (ms : List MemoryRow)
    (h : (rs.map (fun r => r.id)).Nodup) :
    rs.foldl (fun acc r => acc.map (fun m => if m.id = r.id then
      { m with access_count := m.access_count + 1, updated_at := now } else m)) ms
    = ms.map (fun m => if m.id ∈ rs.map (fun r => r.id) then
      { m with access_count := m.access_count + 1, updated_at := now } else m) := by
  induction rs generalizing ms with
  | nil => simp
  | cons r rs' ih =>
    rw [List.map_cons] at h
    rw [List.foldl_cons, ih _ (List.Nodup.of_cons h), List.map_map]
    apply List.map_congr_left
    intro m _
    by_cases hmi : m.id = r.id
    · have hin : r.id ∉ rs'.map (fun r => r.id) := (List.nodup_cons.1 h).1
      simp only [Function.comp_apply, if_pos hmi]
      rw [if_neg (by simpa [hmi] using hin),
        if_pos (by simp [List.map_cons, List.mem_cons, hmi])]
    · simp only [Function.comp_apply, if_neg hmi]
      by_cases hm' : m.id ∈ rs'.map (fun r => r.id)
      · rw [if_pos hm', if_pos (by simp [List.map_cons, List.mem_cons, hm'])]
      · rw [if_neg hm', if_neg (by simp [List.map_cons, List.mem_cons, hmi, hm'])]

lemma retrieveScored_ids_sublist (qe : Vec) (strategy : String) (now : ℕ)
    (rows : List MemoryRow) :
    (((retrieveScored qe strategy now rows).map (fun x => x.2.id)).Sublist
      (rows.map (fun r => r.id))) := by
  induction rows with
  | nil => simp [retrieveScored]
  | cons r rest ih =>
    unfold retrieveScored at ih ⊢
    rw [List.filterMap_cons]
    cases hre : r.embedding with
    | none =>
      simp only [hre]
      exact ih.trans ((List.map_cons _ r rest).symm ▸ (List.sublist_cons_self _ _))
    | some emb =>
      simp only [hre, List.map_cons]
      exact ih.cons₂ _

/-- C8: on every retrieval, exactly the records of the returned top-`limit`
result list have `access_count` incremented and `updated_at` refreshed to `now`;
every other row of the store (including the link table) is unchanged. -/
theorem retrieve_memories_frame (qe : Vec) (st : Store) (strategy : String)
    (limit : ℕ) (tags : Option (List String)) (now : ℕ)
    (hnodup : (st.memories.map (fun m => m.id)).Nodup) :
    ((retrieve_memories qe st strategy limit tags now).1
      = retrieveResults qe st strategy limit tags now) ∧
    ((retrieve_memories qe st strategy limit tags now).1.length ≤ limit) ∧
    ((retrieve_memories qe st strategy limit tags now).2.links = st.links) ∧
    ((retrieve_memories qe st strategy limit tags now).2.memories
      = st.memories.map (fun m =>
          if m.id ∈ (retrieve_memories qe st strategy limit tags now).1.map
              (fun r => r.id)
          then { m with access_count := m.access_count + 1, updated_at := now }
          else m)) ∧
    (∀ m ∈ st.memories,
      m.id ∉ (retrieve_memories qe st strategy limit tags now).1.map (fun r => r.id) →
      m ∈ (retrieve_memories qe st strategy limit tags now).2.memories) := by
  have hrows : (retrieveRows st tags).Sublist st.memories := by
    unfold retrieveRows
    rcases tags with _ | (_ | ⟨t, ts⟩)
    · exact List.Sublist.refl _
    · exact List.Sublist.refl _
    · exact List.filter_sublist _
  have hresnodup :
      ((retrieveResults qe st strategy limit tags now).map (fun r => r.id)).Nodup := by
    have hscored :=
      (retrieveScored_ids_sublist qe strategy now (retrieveRows st tags)).trans
        (hrows.map (fun r => r.id))
    have hscored_nodup :
        ((retrieveScored qe strategy now (retrieveRows st tags)).map
          (fun x => x.2.id)).Nodup := hscored.nodup hnodup
    have hperm :
        (((retrieveScored qe strategy now (retrieveRows st tags)).mergeSort
          (fun a b => decide (b.1 ≤ a.1))).map (fun x => x.2.id)).Nodup :=
      ((List.mergeSort_perm _ _).map _).nodup_iff.2 hscored_nodup
    have htake := ((List.take_sublist limit
      ((retrieveScored qe strategy now (retrieveRows st tags)).mergeSort
        (fun a b => decide (b.1 ≤ a.1)))).map
          (fun (x : ℝ × RetrievedMem) => x.2.id)).nodup hperm
    unfold retrieveResults
    rw [List.map_map]
    exact htake
  have hbump :
      (retrieve_memories qe st strategy limit tags now).2.memories
        = st.memories.map (fun m =>
            if m.id ∈ (retrieve_memories qe st strategy limit tags now).1.map
                (fun r => r.id)
            then { m with access_count := m.access_count + 1, updated_at := now }
            else m) := by
    show (retrieveResults qe st strategy limit tags now).foldl _ st.memories = _
    exact foldl_bump_eq_map now _ st.memories hresnodup
  refine ⟨rfl, ?_, rfl, hbump, ?_⟩
  · show ((((retrieveScored qe strategy now (retrieveRows st tags)).mergeSort
      (fun a b => decide (b.1 ≤ a.1))).take limit).map (fun x => x.2)).length ≤ limit
    rw [List.length_map]
    exact List.length_take_le _ _
  · intro m hm hnot
    rw [hbump]
    exact List.mem_map.2 ⟨m, hm, by rw [if_neg hnot]⟩

/-- A store row with an embedding, for the C8 witness. -/
def frameRec : MemoryRow :=
  { id := "r1", content := "hello", embedding := some [1, 0],
    tier := "short_term", importance := 0.5, tags := none,
    source_agent := "brain", metadata := .empty, created_at := 0,
    updated_at := 0, access_count := 0 }

/-- Witness for C8 on a one-row store. -/
theorem retrieve_memories_frame_witness :
    ((Store.mk [frameRec] []).memories.map (fun m => m.id)).Nodup ∧
    (retrieve_memories [1, 0] ⟨[frameRec], []⟩ "balanced" 1 none 5).2.links = [] := by
  have hn : ((Store.mk [frameRec] []).memories.map (fun m => m.id)).Nodup := by
    simp
  exact ⟨hn,
    (retrieve_memories_frame [1, 0] ⟨[frameRec], []⟩ "balanced" 1 none 5 hn).2.2.1⟩

/- ## Ingestion (`memory/chunker.py` 11-53, `memory/engine.py` 101-159) -/

/-- `chunker.Chunk` (chunker.py 11-19); `metadata` starts empty (`none`) and is
filled by `stamp_metadata`. -/
structure Chunk where
  id : String
  content : String
  chunk_type : String
  turn_id : String
  chunk_index : ℕ := 0
  total_chunks : ℕ := 1
  metadata : Option ChunkMeta := none
deriving DecidableEq, Repr

/-- `chunker.split_turn` (chunker.py 22-53): exactly one `user_query` chunk
followed by the chunks of `chunk_response`. The `uuid`-generated chunk ids are
supplied by `ids` (`ids 0` for the user chunk, `ids (i+1)` for response chunk
`i`); the generated-or-given `turn_id` is a parameter. -/
def split_turn (user_message agent_response turn_id : String)
    (ids : ℕ → String) : List Chunk :=
  let response_chunks := chunk_response agent_response
  let total := response_chunks.length
  Chunk.mk (ids 0) user_message "user_query" turn_id 0 1 none ::
    response_chunks.enum.map (fun (p : ℕ × String) =>
      Chunk.mk (ids (p.1 + 1)) p.2 "agent_response" turn_id p.1 total none)

/-- `chunker.stamp_metadata` (chunker.py 84-111): type, timestamp, turn id, tags
and the `links` map; `user` on the user chunk, `agent` (and `chunk` position for
multi-chunk responses, and non-empty `siblings`) on response chunks. -/
def stamp_metadata (chunk : Chunk) (turn_id agent user : String)
    (tags : Option (List String)) (sibling_ids : Option (List String))
    (linked_ids : LinksMap) (now : ℕ) : Chunk :=
  let base : ChunkMeta :=
    { mtype := chunk.chunk_type, timestamp := now, turn_id := turn_id,
      tags := tags.getD [], links := linked_ids }
  let meta :=
    if chunk.chunk_type = "user_query" then { base with user := some user }
    else
      let m1 := { base with agent := some agent }
      let m2 :=
        if chunk.total_chunks > 1 then
          { m1 with chunk_pos := some (toString (chunk.chunk_index + 1) ++ "/"
            ++ toString chunk.total_chunks) }
        else m1
      match sibling_ids with
      | some (s :: ss) =>
        { m2 with links := { m2.links with siblings := some (s :: ss) } }
      | _ => m2
  { chunk with metadata := some meta }

/-- `dedup.handle_duplicate` (dedup.py 48-81): EXACT_DUP boosts the matched row
(`MIN(importance + 0.1, 1.0)`, `access_count + 1`, `updated_at` refreshed) and
suppresses storage; RELATED stores and inserts a `related_to` link of strength
0.8 (`INSERT OR IGNORE`, modelled as the schema's uniqueness guard on identical
link rows); NOVEL just stores. Returns whether to store, and the store. -/
def handle_duplicate (memory_id : String) (match_type : MatchType)
    (matched_id : Option String) (st : Store) (now : ℕ) : Bool × Store :=
  match match_type with
  | .EXACT_DUP =>
    match matched_id with
    | some mid =>
      (false, { st with memories := st.memories.map (fun m =>
        if m.id = mid then
          { m with
              importance := dupBoostImportance m.importance,
              updated_at := now,
              access_count := m.access_count + 1 }
        else m) })
    | none => (false, st)
  | .RELATED =>
    match matched_id with
    | some mid =>
      let link : LinkRow := ⟨memory_id, mid, "related_to", 0.8⟩
      (true, { st with links :=
        if link ∈ st.links then st.links else st.links ++ [link] })
    | none => (true, st)
  | .NOVEL => (true, st)

/-- `MemoryEngine._get_existing_embeddings` (engine.py 258-272): the most recent
(`ORDER BY created_at DESC`, modelled as a stable descending sort) `max_recent`
rows that have an embedding, as (id, embedding) pairs. -/
def get_existing_embeddings (st : Store) (max_recent : ℕ := 1000) :
    List (String × Vec) :=
  (((st.memories.filter (fun m => m.embedding.isSome)).mergeSort
    (fun a b => decide (b.created_at ≤ a.created_at))).take max_recent).map
      (fun m => (m.id, m.embedding.getD []))

/-- The `INSERT INTO memories` of `_ingest_inner` (engine.py 149-154): tier
`short_term`, the computed importance, comma-joined tags (`None` for a missing
or empty tag list), the acting agent and the stamped metadata. The
`created_at`/`updated_at`/`access_count` values come from column defaults in the
schema (`memory/schemas.py`, not under src); modelled from the spec as the
current timestamp and a zero access count. -/
def ingestRow (chunk : Chunk) (importance : ℚ) (tags : Option (List String))
    (agent : String) (embedding : Option Vec) (now : ℕ) : MemoryRow :=
  { id := chunk.id, content := chunk.content, embedding := embedding,
    tier := "short_term", importance := importance,
    tags := match tags with
      | some (t :: ts) => some (String.intercalate "," (t :: ts))
      | _ => none,
    source_agent := agent,
    metadata := match chunk.metadata with
      | some m => .chunkMeta m
      | none => .empty,
    created_at := now, updated_at := now, access_count := 0 }

/-- The stamping phase of `_ingest_inner` (engine.py 115-126): split the turn,
stamp the user chunk with the full response-id list, stamp each response chunk
with the user chunk's id and its sibling ids (all response ids except its
own). -/
def stampedChunks (user_message agent_response agent user : String)
    (tags : Option (List String)) (turn_id : String) (ids : ℕ → String)
    (now : ℕ) : List Chunk :=
  match split_turn user_message agent_response turn_id ids with
  | [] => []
  | user_chunk :: response_chunks =>
    let response_ids := response_chunks.map (fun c => c.id)
    stamp_metadata user_chunk user_chunk.turn_id agent user tags none
        { response_ids := some response_ids } now ::
      response_chunks.map (fun c =>
        stamp_metadata c c.turn_id agent user tags
          (some (response_ids.filter (fun i => i ≠ c.id)))
          { query_id := some user_chunk.id } now)

/-- The storage loop of `_ingest_inner` (engine.py 128-159): for each chunk,
embed (`emb c.content = none` models an embedding failure, stored text-only);
with an embedding, run dedup against `existing` and apply `handle_duplicate`;
stored chunks with an embedding are appended to `existing`. Returns the stored
ids and the final store. -/
noncomputable def ingestLoop (emb : String → Option Vec) (importance : ℚ)
    (tags : Option (List String)) (agent : String) (now : ℕ) :
    List Chunk → List (String × Vec) → Store → List String × Store
  | [], _, st => ([], st)
  | c :: cs, existing, st =>
    match emb c.content with
    | none =>
      let st' := { st with memories :=
        st.memories ++ [ingestRow c importance tags agent none now] }
      let rest := ingestLoop emb importance tags agent now cs existing st'
      (c.id :: rest.1, rest.2)
    | some e =>
      let dr := check_duplicate e existing
      let hd := handle_duplicate c.id dr.match_type dr.matched_id st now
      if hd.1 then
        let st' := { hd.2 with memories :=
          hd.2.memories ++ [ingestRow c importance tags agent (some e) now] }
        let rest := ingestLoop emb importance tags agent now cs
          (existing ++ [(c.id, e)]) st'
        (c.id :: rest.1, rest.2)
      else
        ingestLoop emb importance tags agent now cs existing hd.2

/-- The no-exact-duplicate condition on an ingest run: along the storage loop,
with `existing` growing by each stored embedded chunk exactly as in
`_ingest_inner` (engine.py 138-147, 156-158), no successfully embedded chunk is
classified `EXACT_DUP` by `check_duplicate`. -/
def ingestNoExactDup (emb : String → Option Vec) :
    List Chunk → List (String × Vec) → Prop
  | [], _ => True
  | c :: cs, existing =>
    match emb c.content with
    | none => ingestNoExactDup emb cs existing
    | some e => (check_duplicate e existing).match_type ≠ MatchType.EXACT_DUP ∧
        ingestNoExactDup emb cs (existing ++ [(c.id, e)])

/-- `MemoryEngine._ingest_inner` (engine.py 113-159). -/
noncomputable def ingest_inner (emb : String → Option Vec)
    (user_message agent_response agent user : String)
    (tags : Option (List String)) (signals : List String) (turn_id : String)
    (ids : ℕ → String) (now : ℕ) (st : Store) : List String × Store :=
  ingestLoop emb (compute_importance_score signals) tags agent now
    (stampedChunks user_message agent_response agent user tags turn_id ids now)
    (get_existing_embeddings st) st

/- ## C6 -/

lemma chunk_response_ne_nil (r : String) (threshold : ℕ) :
    chunk_response r threshold ≠ [] := by
  simp only [chunk_response]
  split
  · simp
  · split
    · simp
    · rename_i hm
      rcases hc : (cleanedParts r.data).map String.mk with _ | ⟨p, rest⟩
      · rw [hc] at hm
        simp [mergeSmall] at hm
      · rw [mergeSmall]
        exact mergeSmallAux_ne_nil _ _

lemma stamp_metadata_id (chunk : Chunk) (turn_id agent user : String)
    (tags : Option (List String)) (sibling_ids : Option (List String))
    (linked_ids : LinksMap) (now : ℕ) :
    (stamp_metadata chunk turn_id agent user tags sibling_ids linked_ids now).id
      = chunk.id := rfl

lemma ingestLoop_all_none (emb : String → Option Vec) (imp : ℚ)
    (tags : Option (List String)) (agent : String) (now : ℕ) (cs : List Chunk) :
    ∀ (ex : List (String × Vec)) (st : Store), (∀ c ∈ cs, emb c.content = none) →
      ingestLoop emb imp tags agent now cs ex st =
        (cs.map (fun c => c.id),
         { st with memories := st.memories
            ++ cs.map (fun c => ingestRow c imp tags agent none now) }) := by
  induction cs with
  | nil => intro ex st h; simp [ingestLoop]
  | cons c cs' ih =>
    intro ex st h
    have hc : emb c.content = none := h c (List.mem_cons_self c cs')
    simp only [ingestLoop, hc]
    rw [ih ex _ (fun c' hc' => h c' (List.mem_cons_of_mem _ hc'))]
    simp [List.append_assoc]

lemma ingestLoop_ids_sublist (emb : String → Option Vec) (imp : ℚ)
    (tags : Option (List String)) (agent : String) (now : ℕ) (cs : List Chunk) :
    ∀ (ex : List (String × Vec)) (st : Store),
      ((ingestLoop emb imp tags agent now cs ex st).1).Sublist
        (cs.map (fun c => c.id)) := by
  induction cs with
  | nil => intro ex st; simp [ingestLoop]
  | cons c cs' ih =>
    intro ex st
    cases hc : emb c.content with
    | none =>
      simp only [ingestLoop, hc, List.map_cons]
      exact (ih _ _).cons₂ _
    | some e =>
      simp only [ingestLoop, hc, List.map_cons]
      split
      · exact (ih _ _).cons₂ _
      · exact (ih _ _).cons _

lemma ingestLoop_no_exact_dup (emb : String → Option Vec) (imp : ℚ)
    (tags : Option (List String)) (agent : String) (now : ℕ) :
    ∀ (cs : List Chunk) (ex : List (String × Vec)) (st : Store),
      ingestNoExactDup emb cs ex →
      (ingestLoop emb imp tags agent now cs ex st).1
          = cs.map (fun c => c.id) ∧
      (ingestLoop emb imp tags agent now cs ex st).2.memories.length
          = st.memories.length + cs.length := by
  intro cs
  induction cs with
  | nil =>
    intro ex st _
    simp [ingestLoop]
  | cons c cs ih =>
    intro ex st h
    cases hc : emb c.content with
    | none =>
      simp only [ingestNoExactDup, hc] at h
      simp only [ingestLoop, hc]
      obtain ⟨h1, h2⟩ := ih ex
        { st with memories :=
            st.memories ++ [ingestRow c imp tags agent none now] } h
      refine ⟨by rw [h1, List.map_cons], ?_⟩
      rw [h2]
      simp only [List.length_append, List.length_cons, List.length_nil]
      omega
    | some e =>
      simp only [ingestNoExactDup, hc] at h
      obtain ⟨hnd, hrest⟩ := h
      have hstore : (handle_duplicate c.id (check_duplicate e ex).match_type
          (check_duplicate e ex).matched_id st now).1 = true ∧
          (handle_duplicate c.id (check_duplicate e ex).match_type
            (check_duplicate e ex).matched_id st now).2.memories
            = st.memories := by
        cases hmt : (check_duplicate e ex).match_type with
        | EXACT_DUP => exact absurd hmt hnd
        | RELATED =>
          cases hmi : (check_duplicate e ex).matched_id with
          | none => simp [handle_duplicate]
          | some mid => simp [handle_duplicate]
        | NOVEL => simp [handle_duplicate]
      simp only [ingestLoop, hc]
      rw [if_pos hstore.1]
      obtain ⟨h1, h2⟩ := ih (ex ++ [(c.id, e)])
        { (handle_duplicate c.id (check_duplicate e ex).match_type
            (check_duplicate e ex).matched_id st now).2 with
          memories := (handle_duplicate c.id (check_duplicate e ex).match_type
            (check_duplicate e ex).matched_id st now).2.memories
              ++ [ingestRow c imp tags agent (some e) now] } hrest
      refine ⟨by rw [h1, List.map_cons], ?_⟩
      rw [h2]
      simp only [List.length_append, List.length_cons, List.length_nil,
        hstore.2]
      omega

lemma stampedChunks_eq (um ar ag us : String) (tags : Option (List String))
    (tid : String) (ids : ℕ → String) (now : ℕ) :
    stampedChunks um ar ag us tags tid ids now =
      stamp_metadata (Chunk.mk (ids 0) um "user_query" tid 0 1 none) tid ag us
        tags none
        { response_ids := some ((chunk_response ar).enum.map
            (fun p => ids (p.1 + 1))) } now ::
      ((chunk_response ar).enum.map (fun (p : ℕ × String) =>
        Chunk.mk (ids (p.1 + 1)) p.2 "agent_response" tid p.1
          (chunk_response ar).length none)).map (fun c =>
        stamp_metadata c tid ag us tags
          (some ((((chunk_response ar).enum.map (fun p => ids (p.1 + 1)))).filter
            (fun i => i ≠ c.id)))
          { query_id := some (ids 0) } now) := by
  simp only [stampedChunks, split_turn, List.map_map]
  rfl

lemma stamp_metadata_user_meta (c : Chunk) (h : c.chunk_type = "user_query")
    (tid ag us : String) (tags : Option (List String))
    (sib : Option (List String)) (L : LinksMap) (now : ℕ) :
    ∃ m, (stamp_metadata c tid ag us tags sib L now).metadata = some m ∧
      m.links = L := by
  simp only [stamp_metadata]
  rw [if_pos h]
  exact ⟨_, rfl, rfl⟩

lemma stamp_metadata_resp_meta (c : Chunk) (h : ¬c.chunk_type = "user_query")
    (tid ag us : String) (tags : Option (List String))
    (sib : Option (List String)) (L : LinksMap) (now : ℕ) :
    ∃ m, (stamp_metadata c tid ag us tags sib L now).metadata = some m ∧
      m.links.query_id = L.query_id ∧
      m.links.siblings =
        (match sib with
         | some (s :: ss) => some (s :: ss)
         | _ => L.siblings) := by
  simp only [stamp_metadata]
  rw [if_neg h]
  rcases sib with _ | (_ | ⟨s, ss⟩) <;>
    · dsimp only
      split <;> exact ⟨_, rfl, rfl, rfl⟩

/-- C6 (amended): ingesting one turn stamps exactly `1 + response_chunk_count`
chunks (one `user_query` chunk, then `≥ 1` `agent_response` chunks); the user
chunk's metadata links list all response-chunk ids, and each response chunk's
metadata links reference the user chunk's id and (when non-empty) list all
sibling response-chunk ids excluding its own. Exactly `1 + response_chunk_count`
records are stored provided no chunk is classified as an exact duplicate along
the run (`ingestNoExactDup`, covering NOVEL and RELATED classifications alike) —
in particular whenever embedding fails for every chunk, in which case the
stored rows are exactly the stamped chunks' rows in order; in general the
stored ids are a sublist of the chunk ids (a chunk classified EXACT_DUP is
skipped, lowering the count). -/
theorem ingest_turn_links (um ar ag us : String) (tags : Option (List String))
    (tid : String) (ids : ℕ → String) (now : ℕ) :
    ((stampedChunks um ar ag us tags tid ids now).length
      = 1 + (chunk_response ar).length ∧
     1 ≤ (chunk_response ar).length) ∧
    (∀ u ∈ (stampedChunks um ar ag us tags tid ids now).head?,
      u.chunk_type = "user_query" ∧
      ∃ m, u.metadata = some m ∧
        m.links.response_ids = some
          ((stampedChunks um ar ag us tags tid ids now).tail.map (fun c => c.id))) ∧
    (∀ c ∈ (stampedChunks um ar ag us tags tid ids now).tail,
      c.chunk_type = "agent_response" ∧
      ∃ m, c.metadata = some m ∧
        m.links.query_id = some (ids 0) ∧
        ((m.links.siblings = some
            (((stampedChunks um ar ag us tags tid ids now).tail.map
              (fun c' => c'.id)).filter (fun i => i ≠ c.id)) ∧
          ((stampedChunks um ar ag us tags tid ids now).tail.map
            (fun c' => c'.id)).filter (fun i => i ≠ c.id) ≠ []) ∨
         (m.links.siblings = none ∧
          ((stampedChunks um ar ag us tags tid ids now).tail.map
            (fun c' => c'.id)).filter (fun i => i ≠ c.id) = []))) ∧
    (∀ (emb : String → Option Vec) (st : Store) (signals : List String),
      (∀ c ∈ stampedChunks um ar ag us tags tid ids now, emb c.content = none) →
      (ingest_inner emb um ar ag us tags signals tid ids now st).1
        = (stampedChunks um ar ag us tags tid ids now).map (fun c => c.id) ∧
      (ingest_inner emb um ar ag us tags signals tid ids now st).2.memories
        = st.memories ++ (stampedChunks um ar ag us tags tid ids now).map
            (fun c => ingestRow c (compute_importance_score signals) tags ag none now)) ∧
    (∀ (emb : String → Option Vec) (st : Store) (signals : List String),
      ((ingest_inner emb um ar ag us tags signals tid ids now st).1).Sublist
        ((stampedChunks um ar ag us tags tid ids now).map (fun c => c.id))) ∧
    (∀ (emb : String → Option Vec) (st : Store) (signals : List String),
      ingestNoExactDup emb (stampedChunks um ar ag us tags tid ids now)
        (get_existing_embeddings st) →
      (ingest_inner emb um ar ag us tags signals tid ids now st).1
        = (stampedChunks um ar ag us tags tid ids now).map (fun c => c.id) ∧
      (ingest_inner emb um ar ag us tags signals tid ids now st).2.memories.length
        = st.memories.length
          + (stampedChunks um ar ag us tags tid ids now).length) := by
  have htail_ids : (stampedChunks um ar ag us tags tid ids now).tail.map
      (fun c => c.id) = (chunk_response ar).enum.map (fun p => ids (p.1 + 1)) := by
    rw [stampedChunks_eq]
    simp only [List.tail_cons, List.map_map]
    apply List.map_congr_left
    intro p _
    rfl
  refine ⟨⟨?_, ?_⟩, ?_, ?_, ?_, ?_, ?_⟩
  · rw [stampedChunks_eq]
    simp [List.length_map, List.enum_length, Nat.add_comm]
  · have h := chunk_response_ne_nil ar 200
    rcases hc : chunk_response ar with _ | ⟨p, rest⟩
    · exact absurd hc h
    · simp
  · intro u hu
    rw [stampedChunks_eq] at hu
    simp only [List.head?_cons, Option.mem_def, Option.some.injEq] at hu
    subst hu
    refine ⟨rfl, ?_⟩
    rw [htail_ids]
    obtain ⟨m, hm, hlinks⟩ := stamp_metadata_user_meta
      (Chunk.mk (ids 0) um "user_query" tid 0 1 none) rfl tid ag us tags none
      { response_ids := some ((chunk_response ar).enum.map (fun p => ids (p.1 + 1))) }
      now
    exact ⟨m, hm, by rw [hlinks]⟩
  · intro c hc
    rw [stampedChunks_eq] at hc
    simp only [List.tail_cons] at hc
    obtain ⟨c0, hc0, rfl⟩ := List.mem_map.1 hc
    obtain ⟨p, hp, rfl⟩ := List.mem_map.1 hc0
    refine ⟨rfl, ?_⟩
    rw [htail_ids]
    simp only [stamp_metadata_id]
    dsimp only
    obtain ⟨m, hm, hq, hs⟩ := stamp_metadata_resp_meta
      (Chunk.mk (ids (p.1 + 1)) p.2 "agent_response" tid p.1
        (chunk_response ar).length none)
      (show ¬("agent_response" = "user_query") by decide) tid ag us tags
      (some (((chunk_response ar).enum.map (fun p => ids (p.1 + 1))).filter
        (fun i => i ≠ ids (p.1 + 1))))
      { query_id := some (ids 0) } now
    refine ⟨m, hm, hq, ?_⟩
    rcases hsib : ((chunk_response ar).enum.map (fun p => ids (p.1 + 1))).filter
        (fun i => i ≠ ids (p.1 + 1)) with _ | ⟨s, ss⟩
    · right
      rw [hsib] at hs
      dsimp only at hs
      exact ⟨hs, rfl⟩
    · left
      rw [hsib] at hs
      dsimp only at hs
      exact ⟨hs, by simp⟩
  · intro emb st signals hall
    unfold ingest_inner
    rw [ingestLoop_all_none emb (compute_importance_score signals) tags ag now
      (stampedChunks um ar ag us tags tid ids now) (get_existing_embeddings st)
      st hall]
    exact ⟨rfl, rfl⟩
  · intro emb st signals
    unfold ingest_inner
    exact ingestLoop_ids_sublist _ _ _ _ _ _ _ _
  · intro emb st signals hno
    unfold ingest_inner
    exact ingestLoop_no_exact_dup emb (compute_importance_score signals) tags ag
      now (stampedChunks um ar ag us tags tid ids now)
      (get_existing_embeddings st) st hno

/-- Id supply for the C6 witness. -/
def wIds : ℕ → String := fun n => if n = 0 then "a" else "b"

/-- Embedder for the C6 witness: the two chunk contents get orthogonal vectors,
so both chunks are classified NOVEL. -/
def wEmb : String → Option Vec :=
  fun s => if s = "hi" then some [1, 0] else some [0, 1]

/-- The stamped user chunk of the C6 witness turn. -/
def wU : Chunk :=
  { id := "a", content := "hi", chunk_type := "user_query", turn_id := "t1",
    chunk_index := 0, total_chunks := 1,
    metadata := some
      { mtype := "user_query", timestamp := 0, turn_id := "t1", tags := [],
        links := { response_ids := some ["b"] }, user := some "user" } }

/-- The stamped response chunk of the C6 witness turn. -/
def wR : Chunk :=
  { id := "b", content := "there", chunk_type := "agent_response",
    turn_id := "t1", chunk_index := 0, total_chunks := 1,
    metadata := some
      { mtype := "agent_response", timestamp := 0, turn_id := "t1", tags := [],
        links := { query_id := some "a" }, agent := some "brain" } }

/-- Witness for C6: a small turn; with a failing embedder all chunks are stored,
and with an embedder mapping the two chunks to orthogonal vectors the run has
no exact duplicate, so both chunks are stored and the record count is exactly
`1 + response_chunk_count = 2`. -/
theorem ingest_turn_links_witness :
    ((stampedChunks "hi" "there" "brain" "user" none "t1" wIds 0).length = 2) ∧
    ingestNoExactDup wEmb
      (stampedChunks "hi" "there" "brain" "user" none "t1" wIds 0)
      (get_existing_embeddings ⟨[], []⟩) ∧
    ((ingest_inner wEmb "hi" "there" "brain" "user" none [] "t1" wIds 0
        ⟨[], []⟩).1
      = (stampedChunks "hi" "there" "brain" "user" none "t1" wIds 0).map
          (fun c => c.id) ∧
     (ingest_inner wEmb "hi" "there" "brain" "user" none [] "t1" wIds 0
        ⟨[], []⟩).2.memories.length
      = (⟨[], []⟩ : Store).memories.length
        + (stampedChunks "hi" "there" "brain" "user" none "t1" wIds 0).length) ∧
    (∀ c ∈ stampedChunks "hi" "there" "brain" "user" none "t1" wIds 0,
      (fun (_ : String) => (none : Option Vec)) c.content = none) ∧
    (ingest_inner (fun _ => none) "hi" "there" "brain" "user" none [] "t1" wIds 0
        ⟨[], []⟩).1
      = (stampedChunks "hi" "there" "brain" "user" none "t1" wIds 0).map
          (fun c => c.id) := by
  have hall : ∀ c ∈ stampedChunks "hi" "there" "brain" "user" none "t1" wIds 0,
      (fun (_ : String) => (none : Option Vec)) c.content = none := fun c _ => rfl
  have hch : stampedChunks "hi" "there" "brain" "user" none "t1" wIds 0
      = [wU, wR] := by decide
  have hex : get_existing_embeddings ⟨[], []⟩ = [] := by
    simp [get_existing_embeddings]
  have hcd1 : check_duplicate [1, 0] [] = ⟨.NOVEL, none, 0⟩ := by
    unfold check_duplicate
    rw [show bestMatch [1, 0] [] = (0, none) from by unfold bestMatch; rfl]
    norm_num
  have hcos : cosine_similarity [0, 1] [1, 0] = 0 := by
    rw [cosine_similarity_eval [0, 1] [1, 0] 1 1 one_pos one_pos
      (by norm_num [sumSq]) (by norm_num [sumSq])]
    norm_num [dot]
  have hbm2 : bestMatch [0, 1] [("a", [1, 0])] = (0, none) := by
    unfold bestMatch
    simp only [List.foldl_cons, List.foldl_nil, hcos]
    norm_num
  have hcd2 : check_duplicate [0, 1] [("a", [1, 0])] = ⟨.NOVEL, none, 0⟩ := by
    unfold check_duplicate
    rw [hbm2]
    norm_num
  have hno : ingestNoExactDup wEmb
      (stampedChunks "hi" "there" "brain" "user" none "t1" wIds 0)
      (get_existing_embeddings ⟨[], []⟩) := by
    rw [hch, hex]
    simp only [ingestNoExactDup, show wEmb wU.content = some [1, 0] from rfl,
      show wEmb wR.content = some [0, 1] from rfl,
      show wU.id = "a" from rfl, List.nil_append]
    rw [hcd1, hcd2]
    exact ⟨by decide, by decide, trivial⟩
  refine ⟨?_, hno, ?_, hall, ?_⟩
  · rw [(ingest_turn_links "hi" "there" "brain" "user" none "t1" wIds 0).1.1]
    decide
  · exact (ingest_turn_links "hi" "there" "brain" "user" none "t1" wIds 0).2.2.2.2.2
      wEmb ⟨[], []⟩ [] hno
  · exact ((ingest_turn_links "hi" "there" "brain" "user" none "t1" wIds 0).2.2.2.1
      (fun _ => none) ⟨[], []⟩ [] hall).1

/-- Id supply for the C6 counterexample. -/
def cexIds : ℕ → String := fun n => if n = 0 then "u" else "r"

/-- The stamped user chunk of the duplicate-suppression counterexample. -/
def cexU : Chunk :=
  { id := "u", content := "same", chunk_type := "user_query", turn_id := "t1",
    chunk_index := 0, total_chunks := 1,
    metadata := some
      { mtype := "user_query", timestamp := 0, turn_id := "t1", tags := [],
        links := { response_ids := some ["r"] }, user := some "user" } }

/-- The stamped response chunk of the duplicate-suppression counterexample. -/
def cexR : Chunk :=
  { id := "r", content := "same", chunk_type := "agent_response", turn_id := "t1",
    chunk_index := 0, total_chunks := 1,
    metadata := some
      { mtype := "agent_response", timestamp := 0, turn_id := "t1", tags := [],
        links := { query_id := some "u" }, agent := some "brain" } }

/-- C6 counterexample: a turn whose user message and response are identical and
whose embedder maps both to the same vector produces 2 chunks, but only 1 stored
record: the response chunk is classified EXACT_DUP (similarity 1 > 0.92) against
the just-stored user chunk and is skipped, so `1 + response_chunk_count = 2`
records is not reached. -/
theorem ingest_dedup_cex :
    (stampedChunks "same" "same" "brain" "user" none "t1" cexIds 0).length = 2 ∧
    (ingest_inner (fun _ => some [1, 0]) "same" "same" "brain" "user" none []
        "t1" cexIds 0 ⟨[], []⟩).1 = ["u"] := by
  have hch : stampedChunks "same" "same" "brain" "user" none "t1" cexIds 0
      = [cexU, cexR] := by decide
  have hex : get_existing_embeddings ⟨[], []⟩ = [] := by
    simp [get_existing_embeddings]
  have hcd1 : check_duplicate [1, 0] [] = ⟨.NOVEL, none, 0⟩ := by
    unfold check_duplicate
    rw [show bestMatch [1, 0] [] = (0, none) from by unfold bestMatch; rfl]
    norm_num
  have hcos : cosine_similarity [1, 0] [1, 0] = 1 := by
    rw [cosine_similarity_eval [1, 0] [1, 0] 1 1 one_pos one_pos
      (by norm_num [sumSq]) (by norm_num [sumSq])]
    norm_num [dot]
  have hbm2 : bestMatch [1, 0] [("u", [1, 0])] = (1, some "u") := by
    unfold bestMatch
    simp only [List.foldl_cons, List.foldl_nil, hcos]
    norm_num
  have hcd2 : check_duplicate [1, 0] [("u", [1, 0])] = ⟨.EXACT_DUP, some "u", 1⟩ := by
    unfold check_duplicate
    rw [hbm2]
    norm_num
  refine ⟨by rw [hch]; rfl, ?_⟩
  unfold ingest_inner
  rw [hch, hex]
  simp only [ingestLoop, show cexU.content = "same" from rfl,
    show cexR.content = "same" from rfl, show cexU.id = "u" from rfl,
    hcd1, List.nil_append, hcd2, handle_duplicate]
  simp

/- ## Consolidation (`memory/consolidation.py`) -/

/-- `consolidation.find_old_memories` (consolidation.py 52-60): `short_term` rows
created before the cutoff (`datetime.now - days`, supplied as a clock value). -/
def find_old_memories (st : Store) (cutoff : ℕ) : List MemoryRow :=
  st.memories.filter (fun m => decide (m.tier = "short_term" ∧ m.created_at < cutoff))

open Classical in
/-- `consolidation.cluster_memories` (consolidation.py 63-86): greedy single-pass
clustering. Rows without an embedding are skipped entirely; each not-yet-used
row with an embedding seeds a cluster and absorbs every later unused row with an
embedding whose cosine similarity to the seed is at least the threshold
(seed-only comparison). Whether a later row is absorbed depends only on the row
itself, so the source's used-index bookkeeping is the same as partitioning the
remaining rows by the absorption predicate. -/
noncomputable def cluster_memories (memories : List MemoryRow)
    (threshold : ℝ := 0.7) : List (List MemoryRow) :=
  match memories with
  | [] => []
  | m :: rest =>
    match m.embedding with
    | none => cluster_memories rest threshold
    | some emb_i =>
      let absorb : MemoryRow → Bool := fun x =>
        x.embedding.isSome ∧ threshold ≤ cosine_similarity emb_i (x.embedding.getD [])
      (m :: rest.filter absorb) ::
        cluster_memories (rest.filter (fun x => !absorb x)) threshold
termination_by memories.length
decreasing_by
  · simp
  · exact Nat.lt_succ_of_le (List.length_filter_le _ _)

/-- Python's `max(cluster, key=importance)`: the first member of maximal
importance (replacement only on a strictly greater key). Used by both
`summarize_cluster` (consolidation.py 89-95, with `.get("importance", 0)`) and
the `best` selection of `run_consolidation` (consolidation.py 28) — the
`importance` key is always present on these rows, so both compute this. -/
def firstMaxImportance (m : MemoryRow) (rest : List MemoryRow) : MemoryRow :=
  rest.foldl (fun best x => if best.importance < x.importance then x else best) m

/-- `consolidation.summarize_cluster`: the content of the first
highest-importance member (`[]` is unreachable — clusters are non-empty). -/
def summarize_cluster (cluster : List MemoryRow) : String :=
  match cluster with
  | [] => ""
  | m :: rest => (firstMaxImportance m rest).content

/-- `consolidation.prune_low_importance` (consolidation.py 98-104): delete
`short_term` rows with importance below the threshold; returns the deleted-row
count (`cursor.rowcount`) and the store. -/
def prune_low_importance (st : Store) (threshold : ℚ := 0.3) : ℕ × Store :=
  ((st.memories.filter (fun m =>
      decide (m.tier = "short_term" ∧ m.importance < threshold))).length,
   { st with memories := st.memories.filter (fun m =>
      !decide (m.tier = "short_term" ∧ m.importance < threshold)) })

/-- The per-member loop of a consolidated cluster (consolidation.py 36-42):
insert a `consolidated_into` link of strength 1.0 (`INSERT OR IGNORE`,
modelled as the schema's uniqueness guard) and delete the member's row. -/
def clusterFold (summary_id : String) (cluster : List MemoryRow) (s : Store) :
    Store :=
  cluster.foldl (fun s mem =>
    let link : LinkRow := ⟨mem.id, summary_id, "consolidated_into", 1⟩
    { memories := s.memories.filter (fun r => !decide (r.id = mem.id)),
      links := if link ∈ s.links then s.links else s.links ++ [link] }) s

/-- The cluster loop of `run_consolidation` (consolidation.py 22-43): clusters of
size < 2 are skipped; a cluster of size ≥ 2 gets one new `long_term` summary row
(fresh uuid `newIds k`, content and importance of the first highest-importance
member, its embedding/tags/source and a `consolidated_from` marker), then every
member is linked to it and deleted. `k` counts big clusters processed (the id
supply), `count` the members consolidated so far. -/
def processClusters (newIds : ℕ → String) (now : ℕ) :
    List (List MemoryRow) → ℕ → ℕ → Store → ℕ × Store
  | [], _, count, st => (count, st)
  | cluster :: cs, k, count, st =>
    match cluster with
    | [] => processClusters newIds now cs k count st
    | [_] => processClusters newIds now cs k count st
    | m0 :: m1 :: ms =>
      let best := firstMaxImportance m0 (m1 :: ms)
      let summaryRow : MemoryRow :=
        { id := newIds k, content := summarize_cluster (m0 :: m1 :: ms),
          embedding := best.embedding, tier := "long_term",
          importance := best.importance, tags := best.tags,
          source_agent := best.source_agent,
          metadata := .consolidatedFrom ((m0 :: m1 :: ms).map (fun m => m.id)),
          created_at := now, updated_at := now, access_count := 0 }
      let st2 := clusterFold (newIds k) (m0 :: m1 :: ms)
        { st with memories := st.memories ++ [summaryRow] }
      processClusters newIds now cs (k + 1) (count + (m0 :: m1 :: ms).length) st2

open Classical in
/-- `consolidation.run_consolidation` (consolidation.py 14-49): nothing to do on
an empty old-memory selection; otherwise cluster and consolidate, and in
reduced-retention mode (`tier ≠ "full"`) additionally prune low-importance
short-term rows, adding the pruned count. -/
noncomputable def run_consolidation (st : Store) (tier : String) (cutoff : ℕ)
    (newIds : ℕ → String) (now : ℕ) : ℕ × Store :=
  let old := find_old_memories st cutoff
  if old = [] then (0, st)
  else
    let res := processClusters newIds now (cluster_memories old) 0 0 st
    if tier ≠ "full" then
      let pr := prune_low_importance res.2
      (res.1 + pr.1, pr.2)
    else res

lemma firstMaxImportance_spec (rest : List MemoryRow) :
    ∀ m, firstMaxImportance m rest ∈ m :: rest ∧
      ∀ x ∈ m :: rest, x.importance ≤ (firstMaxImportance m rest).importance := by
  induction rest with
  | nil =>
    intro m
    constructor
    · simp [firstMaxImportance]
    · intro x hx
      simp only [firstMaxImportance, List.foldl_nil]
      rcases List.mem_cons.1 hx with rfl | h
      · exact le_rfl
      · simp at h
  | cons y rest ih =>
    intro m
    have key : firstMaxImportance m (y :: rest)
        = firstMaxImportance (if m.importance < y.importance then y else m) rest :=
      rfl
    obtain ⟨hmem, hbd⟩ := ih (if m.importance < y.importance then y else m)
    rw [key]
    constructor
    · rcases List.mem_cons.1 hmem with hh | hh
      · rw [hh]
        split
        · exact List.mem_cons_of_mem _ (List.mem_cons_self _ _)
        · exact List.mem_cons_self _ _
      · exact List.mem_cons_of_mem _ (List.mem_cons_of_mem _ hh)
    · intro x hx
      rcases List.mem_cons.1 hx with rfl | hx'
      · refine le_trans ?_ (hbd _ (List.mem_cons_self _ _))
        split
        · rename_i hlt; exact le_of_lt hlt
        · exact le_rfl
      · rcases List.mem_cons.1 hx' with rfl | hx''
        · refine le_trans ?_ (hbd _ (List.mem_cons_self _ _))
          split
          · exact le_rfl
          · rename_i hnlt; exact le_of_not_lt hnlt
        · exact hbd x (List.mem_cons_of_mem _ hx'')

lemma clusterFold_spec (sid : String) (cluster : List MemoryRow) :
    ∀ s : Store,
      (clusterFold sid cluster s).memories
        = s.memories.filter (fun r => !decide (r.id ∈ cluster.map (fun m => m.id))) ∧
      (∀ l ∈ s.links, l ∈ (clusterFold sid cluster s).links) ∧
      (∀ m ∈ cluster, (⟨m.id, sid, "consolidated_into", 1⟩ : LinkRow)
        ∈ (clusterFold sid cluster s).links) := by
  induction cluster with
  | nil =>
    intro s
    refine ⟨by simp [clusterFold], fun l hl => hl, by simp⟩
  | cons m0 rest ih =>
    intro s
    have hstep : clusterFold sid (m0 :: rest) s = clusterFold sid rest
        ⟨s.memories.filter (fun r => !decide (r.id = m0.id)),
         if (⟨m0.id, sid, "consolidated_into", 1⟩ : LinkRow) ∈ s.links then s.links
         else s.links ++ [⟨m0.id, sid, "consolidated_into", 1⟩]⟩ := rfl
    obtain ⟨h1, h2, h3⟩ := ih
      ⟨s.memories.filter (fun r => !decide (r.id = m0.id)),
       if (⟨m0.id, sid, "consolidated_into", 1⟩ : LinkRow) ∈ s.links then s.links
       else s.links ++ [⟨m0.id, sid, "consolidated_into", 1⟩]⟩
    refine ⟨?_, ?_, ?_⟩
    · rw [hstep, h1]
      rw [List.filter_filter]
      apply List.filter_congr
      intro r _
      by_cases h0 : r.id = m0.id <;>
        by_cases hr : r.id ∈ rest.map (fun m => m.id) <;>
          simp [h0, hr, List.mem_cons]
    · intro l hl
      rw [hstep]
      apply h2
      by_cases hc : (⟨m0.id, sid, "consolidated_into", 1⟩ : LinkRow) ∈ s.links
      · simpa [hc] using hl
      · simp only [if_neg hc]
        exact List.mem_append_left _ hl
    · intro m hm
      rw [hstep]
      rcases List.mem_cons.1 hm with rfl | hm'
      · apply h2
        by_cases hc : (⟨m.id, sid, "consolidated_into", 1⟩ : LinkRow) ∈ s.links
        · simpa [hc] using hc
        · simp only [if_neg hc]
          exact List.mem_append_right _ (List.mem_singleton_self _)
      · exact h3 m hm'

lemma processClusters_links_mono (newIds : ℕ → String) (now : ℕ) :
    ∀ (cs : List (List MemoryRow)) (k count : ℕ) (s : Store),
      ∀ l ∈ s.links, l ∈ (processClusters newIds now cs k count s).2.links := by
  intro cs
  induction cs with
  | nil => intro k count s l hl; simpa [processClusters] using hl
  | cons c cs ih =>
    intro k count s l hl
    rcases c with _ | ⟨m0, _ | ⟨m1, ms⟩⟩
    · simp only [processClusters]
      exact ih k count s l hl
    · simp only [processClusters]
      exact ih k count s l hl
    · simp only [processClusters]
      apply ih
      exact (clusterFold_spec (newIds k) (m0 :: m1 :: ms) _).2.1 l hl

lemma subperm_map {α β : Type} (f : α → β) {l1 l2 : List α} (h : l1.Subperm l2) :
    (l1.map f).Subperm (l2.map f) := by
  obtain ⟨w, hperm, hsub⟩ := h
  exact ⟨w.map f, hperm.map f, hsub.map f⟩

lemma subperm_nodup {α : Type} {l1 l2 : List α} (h : l1.Subperm l2)
    (h2 : l2.Nodup) : l1.Nodup := by
  obtain ⟨w, hperm, hsub⟩ := h
  exact hperm.nodup_iff.1 (hsub.nodup h2)

lemma cluster_memories_join_subperm (t : ℝ) :
    ∀ (n : ℕ) (ms : List MemoryRow), ms.length ≤ n →
      ((cluster_memories ms t).join).Subperm ms := by
  intro n
  induction n with
  | zero =>
    intro ms h
    rw [List.length_eq_zero.1 (Nat.le_zero.1 h)]
    simp [cluster_memories]
  | succ n ih =>
    intro ms h
    rcases ms with _ | ⟨m, rest⟩
    · simp [cluster_memories]
    · cases hemb : m.embedding with
      | none =>
        simp only [cluster_memories]
        rw [hemb]
        exact (ih rest (Nat.le_of_succ_le_succ h)).trans
          (List.sublist_cons_self m rest).subperm
      | some emb =>
        simp only [cluster_memories]
        rw [hemb]
        simp only [List.join_cons, List.cons_append]
        apply (List.subperm_cons m).2
        have h1 := ih (rest.filter (fun x =>
            !decide (x.embedding.isSome ∧
              t ≤ cosine_similarity emb (x.embedding.getD []))))
          (le_trans (List.length_filter_le _ _) (Nat.le_of_succ_le_succ h))
        exact ((List.subperm_append_left _).2 h1).trans
          (List.filter_append_perm _ rest).subperm

/-- The members of the size-≥2 clusters (those consolidation removes). -/
def bigJoin (cs : List (List MemoryRow)) : List MemoryRow :=
  (cs.filter (fun c => decide (2 ≤ c.length))).join

/-- The summary rows the cluster loop is expected to append, in order, with ids
drawn from the supply starting at `k` (stated for comparison with
`processClusters`). -/
def expectedSummaries (newIds : ℕ → String) (now : ℕ) :
    List (List MemoryRow) → ℕ → List MemoryRow
  | [], _ => []
  | c :: cs, k =>
    match c with
    | [] => expectedSummaries newIds now cs k
    | [_] => expectedSummaries newIds now cs k
    | m0 :: m1 :: ms =>
      { id := newIds k, content := summarize_cluster (m0 :: m1 :: ms),
        embedding := (firstMaxImportance m0 (m1 :: ms)).embedding,
        tier := "long_term",
        importance := (firstMaxImportance m0 (m1 :: ms)).importance,
        tags := (firstMaxImportance m0 (m1 :: ms)).tags,
        source_agent := (firstMaxImportance m0 (m1 :: ms)).source_agent,
        metadata := .consolidatedFrom ((m0 :: m1 :: ms).map (fun m => m.id)),
        created_at := now, updated_at := now, access_count := 0 } ::
        expectedSummaries newIds now cs (k + 1)

lemma expectedSummaries_ids (newIds : ℕ → String) (now : ℕ) :
    ∀ (cs : List (List MemoryRow)) (k : ℕ),
      ∀ row ∈ expectedSummaries newIds now cs k, ∃ j, k ≤ j ∧ row.id = newIds j := by
  intro cs
  induction cs with
  | nil => intro k row hrow; simp [expectedSummaries] at hrow
  | cons c cs ih =>
    intro k row hrow
    rcases c with _ | ⟨m0, _ | ⟨m1, ms⟩⟩
    · exact ih k row hrow
    · exact ih k row hrow
    · simp only [expectedSummaries] at hrow
      rcases List.mem_cons.1 hrow with rfl | hrow'
      · exact ⟨k, le_rfl, rfl⟩
      · obtain ⟨j, hj, hid⟩ := ih (k + 1) row hrow'
        exact ⟨j, le_trans (Nat.le_succ k) hj, hid⟩


lemma bigJoin_subset (cs : List (List MemoryRow)) :
    ∀ m ∈ bigJoin cs, m ∈ cs.join := by
  intro m hm
  unfold bigJoin at hm
  obtain ⟨c, hc, hmc⟩ := List.mem_join.1 hm
  exact List.mem_join.2 ⟨c, List.mem_of_mem_filter hc, hmc⟩

lemma filter_notin_append (l : List MemoryRow) (A B : List String) :
    List.filter (fun r => !decide (r.id ∈ A))
      (List.filter (fun r => !decide (r.id ∈ B)) l)
    = List.filter (fun r => !decide (r.id ∈ B ++ A)) l := by
  induction l with
  | nil => rfl
  | cons x xs ih =>
    by_cases hB : x.id ∈ B <;> by_cases hA : x.id ∈ A <;>
      simp [List.filter_cons, hA, hB, ih, List.mem_append]

lemma processClusters_spec (newIds : ℕ → String) (now : ℕ)
    (hinj : Function.Injective newIds) :
    ∀ (cs : List (List MemoryRow)) (k count : ℕ) (s : Store),
      (s.memories.map (fun m => m.id)).Nodup →
      (cs.join.map (fun m => m.id)).Nodup →
      (∀ m ∈ cs.join, m ∈ s.memories) →
      (∀ j, k ≤ j → ∀ r ∈ s.memories, newIds j ≠ r.id) →
      (processClusters newIds now cs k count s).1
          = count + ((cs.filter (fun c => decide (2 ≤ c.length))).map
              List.length).sum ∧
      (processClusters newIds now cs k count s).2.memories
          = s.memories.filter (fun r =>
              !decide (r.id ∈ (bigJoin cs).map (fun m => m.id)))
            ++ expectedSummaries newIds now cs k ∧
      (∀ c ∈ cs, 2 ≤ c.length → ∃ sid,
        (∀ m ∈ c, (⟨m.id, sid, "consolidated_into", 1⟩ : LinkRow)
          ∈ (processClusters newIds now cs k count s).2.links) ∧
        ∃ row ∈ (processClusters newIds now cs k count s).2.memories,
          row.id = sid ∧ row.tier = "long_term" ∧
          ∃ rep ∈ c, (∀ x ∈ c, x.importance ≤ rep.importance) ∧
            row.content = rep.content ∧ row.importance = rep.importance) := by
  intro cs
  induction cs with
  | nil =>
    intro k count s hs _ _ _
    refine ⟨by simp [processClusters], ?_, by simp⟩
    simp [processClusters, bigJoin, expectedSummaries]
  | cons c cs ih =>
    intro k count s hs hjoin hmem hfresh
    rcases c with _ | ⟨m0, _ | ⟨m1, ms⟩⟩
    · -- empty cluster: skipped
      have hskip : processClusters newIds now ([] :: cs) k count s
          = processClusters newIds now cs k count s := rfl
      have hj : (cs.join.map (fun m => m.id)).Nodup := by simpa using hjoin
      have hm : ∀ m ∈ cs.join, m ∈ s.memories := by
        intro m hm'
        exact hmem m (by simpa using hm')
      obtain ⟨hA, hB, hC⟩ := ih k count s hs hj hm hfresh
      refine ⟨?_, ?_, ?_⟩
      · rw [hskip, hA]; rfl
      · rw [hskip, hB]; rfl
      · intro c' hc' hlen
        rcases List.mem_cons.1 hc' with rfl | hc''
        · simp at hlen
        · rw [hskip]; exact hC c' hc'' hlen
    · -- singleton cluster: skipped
      have hskip : processClusters newIds now ([m0] :: cs) k count s
          = processClusters newIds now cs k count s := rfl
      have hj : (cs.join.map (fun m => m.id)).Nodup := by
        have := hjoin
        simp only [List.join_cons, List.map_append] at this
        exact (List.nodup_append.1 this).2.1
      have hm : ∀ m ∈ cs.join, m ∈ s.memories := by
        intro m hm'
        exact hmem m (by simp [hm'])
      obtain ⟨hA, hB, hC⟩ := ih k count s hs hj hm hfresh
      refine ⟨?_, ?_, ?_⟩
      · rw [hskip, hA]; rfl
      · rw [hskip, hB]; rfl
      · intro c' hc' hlen
        rcases List.mem_cons.1 hc' with rfl | hc''
        · simp at hlen
        · rw [hskip]; exact hC c' hc'' hlen
    · -- cluster of size ≥ 2
      set C : List MemoryRow := m0 :: m1 :: ms with hC_def
      set row_c : MemoryRow :=
        { id := newIds k, content := summarize_cluster C,
          embedding := (firstMaxImportance m0 (m1 :: ms)).embedding,
          tier := "long_term",
          importance := (firstMaxImportance m0 (m1 :: ms)).importance,
          tags := (firstMaxImportance m0 (m1 :: ms)).tags,
          source_agent := (firstMaxImportance m0 (m1 :: ms)).source_agent,
          metadata := .consolidatedFrom (C.map (fun m => m.id)),
          created_at := now, updated_at := now, access_count := 0 } with hrow_def
      set s1 : Store := { s with memories := s.memories ++ [row_c] } with hs1_def
      set s2 : Store := clusterFold (newIds k) C s1 with hs2_def
      have hstep : processClusters newIds now (C :: cs) k count s
          = processClusters newIds now cs (k + 1) (count + C.length) s2 := rfl
      have hjoin' : ((C.map (fun m => m.id)) ++ (cs.join.map (fun m => m.id))).Nodup := by
        have := hjoin
        simp only [List.join_cons, List.map_append] at this
        exact this
      obtain ⟨hCids, hcsids, hdisj⟩ := List.nodup_append.1 hjoin'
      have hCsub : ∀ m ∈ C, m ∈ s.memories := by
        intro m hm'
        exact hmem m (by simp [List.join_cons, List.mem_append, hm'])
      have hcssub : ∀ m ∈ cs.join, m ∈ s.memories := by
        intro m hm'
        exact hmem m (by simp [List.join_cons, List.mem_append, hm'])
      have hkC : newIds k ∉ C.map (fun m => m.id) := by
        intro hcontra
        obtain ⟨m, hmC, hmid⟩ := List.mem_map.1 hcontra
        exact hfresh k le_rfl m (hCsub m hmC) hmid.symm
      have hs2mem : s2.memories
          = s.memories.filter (fun r => !decide (r.id ∈ C.map (fun m => m.id)))
            ++ [row_c] := by
        rw [hs2_def, (clusterFold_spec (newIds k) C s1).1, hs1_def]
        rw [List.filter_append]
        congr 1
        have hCne : ∀ x ∈ C, ¬x.id = newIds k := by
          intro x hx h
          exact hfresh k le_rfl x (hCsub x hx) h.symm
        simp [hrow_def]
        exact hCne
      have hs2nodup : (s2.memories.map (fun m => m.id)).Nodup := by
        rw [hs2mem, List.map_append]
        rw [List.nodup_append]
        refine ⟨((List.filter_sublist _).map _).nodup hs, by simp, ?_⟩
        intro x hx
        obtain ⟨r, hr, hrid⟩ := List.mem_map.1 hx
        have hrs : r ∈ s.memories := List.mem_of_mem_filter hr
        simp only [List.map_cons, List.map_nil, List.mem_singleton]
        intro hxk
        exact hfresh k le_rfl r hrs (by rw [← hxk, hrid])
      have hmem2 : ∀ m ∈ cs.join, m ∈ s2.memories := by
        intro m hm'
        rw [hs2mem]
        apply List.mem_append_left
        rw [List.mem_filter]
        refine ⟨hcssub m hm', ?_⟩
        simp only [Bool.not_eq_true', decide_eq_false_iff_not]
        intro hcontra
        exact hdisj hcontra (List.mem_map.2 ⟨m, hm', rfl⟩)
      have hfresh2 : ∀ j, k + 1 ≤ j → ∀ r ∈ s2.memories, newIds j ≠ r.id := by
        intro j hj r hr
        rw [hs2mem] at hr
        rcases List.mem_append.1 hr with hr' | hr'
        · exact hfresh j (by omega) r (List.mem_of_mem_filter hr')
        · rw [List.mem_singleton] at hr'
          subst hr'
          rw [hrow_def]
          intro hcontra
          exact absurd (hinj hcontra) (by omega)
      obtain ⟨hA, hB, hC3⟩ := ih (k + 1) (count + C.length) s2 hs2nodup hcsids
        hmem2 hfresh2
      have hbigC : decide (2 ≤ C.length) = true := by simp [hC_def]
      have hfiltC : List.filter (fun c => decide (2 ≤ c.length)) (C :: cs)
          = C :: List.filter (fun c => decide (2 ≤ c.length)) cs := by
        rw [List.filter_cons]
        simp only [hbigC, if_true]
      have hkbig : newIds k ∉ (bigJoin cs).map (fun m => m.id) := by
        intro hcontra
        obtain ⟨m, hmB, hmid⟩ := List.mem_map.1 hcontra
        exact hfresh k le_rfl m (hcssub m (bigJoin_subset cs m hmB)) hmid.symm
      have hbigcons : bigJoin (C :: cs) = C ++ bigJoin cs := by
        unfold bigJoin
        rw [hfiltC]
        rfl
      refine ⟨?_, ?_, ?_⟩
      · rw [hstep, hA, hfiltC]
        simp only [List.map_cons, List.sum_cons]
        omega
      · rw [hstep, hB, hs2mem, List.filter_append, filter_notin_append]
        have hBne : ∀ x ∈ bigJoin cs, ¬x.id = newIds k := by
          intro x hx h
          exact hfresh k le_rfl x (hcssub x (bigJoin_subset cs x hx)) h.symm
        have hrowkeep : [row_c].filter
            (fun r => !decide (r.id ∈ (bigJoin cs).map (fun m => m.id)))
            = [row_c] := by
          simp [hrow_def]
          exact hBne
        rw [hrowkeep]
        have hexp : expectedSummaries newIds now (C :: cs) k
            = row_c :: expectedSummaries newIds now cs (k + 1) := rfl
        rw [hexp, hbigcons, List.map_append]
        simp [List.append_assoc]
      · intro c' hc' hlen
        rcases List.mem_cons.1 hc' with rfl | hc''
        · -- the head cluster itself
          refine ⟨newIds k, ?_, ?_⟩
          · intro m hm'
            rw [hstep]
            apply processClusters_links_mono
            exact (clusterFold_spec (newIds k) C s1).2.2 m hm'
          · refine ⟨row_c, ?_, rfl, rfl, firstMaxImportance m0 (m1 :: ms),
              (firstMaxImportance_spec (m1 :: ms) m0).1, ?_, rfl, rfl⟩
            · rw [hstep, hB]
              apply List.mem_append_left
              rw [List.mem_filter]
              refine ⟨?_, by simpa using hkbig⟩
              rw [hs2mem]
              exact List.mem_append_right _ (List.mem_singleton_self _)
            · exact (firstMaxImportance_spec (m1 :: ms) m0).2
        · obtain ⟨sid, hlinks, hrow⟩ := hC3 c' hc'' hlen
          refine ⟨sid, ?_, ?_⟩
          · intro m hm'
            rw [hstep]
            exact hlinks m hm'
          · rw [hstep]
            exact hrow

lemma join_nodup_cross :
    ∀ (cs : List (List MemoryRow)),
      ((cs.join).map (fun m => m.id)).Nodup →
      ∀ c ∈ cs, ∀ c' ∈ cs, ∀ m ∈ c, ∀ m' ∈ c', m.id = m'.id → c = c' := by
  intro cs
  induction cs with
  | nil =>
    intro _ c hc
    simp at hc
  | cons c0 cs ih =>
    intro hnd c hc c' hc' m hm m' hm' hid
    have hsplit : ((c0.map (fun m => m.id))
        ++ (cs.join.map (fun m => m.id))).Nodup := by
      simpa [List.join_cons, List.map_append] using hnd
    obtain ⟨h0, hrest, hdisj⟩ := List.nodup_append.1 hsplit
    rcases List.mem_cons.1 hc with rfl | hc2 <;>
      rcases List.mem_cons.1 hc' with rfl | hc2'
    · rfl
    · exact absurd (List.mem_map.2 ⟨m', List.mem_join.2 ⟨c', hc2', hm'⟩, hid.symm⟩)
        (hdisj (List.mem_map.2 ⟨m, hm, rfl⟩))
    · exact absurd (List.mem_map.2 ⟨m, List.mem_join.2 ⟨c, hc2, hm⟩, hid⟩)
        (hdisj (List.mem_map.2 ⟨m', hm', rfl⟩))
    · exact ih hrest c hc2 c' hc2' m hm m' hm' hid

lemma small_cluster_not_big (cs : List (List MemoryRow))
    (hnd : ((cs.join).map (fun m => m.id)).Nodup)
    (c : List MemoryRow) (hc : c ∈ cs) (hlen : ¬ 2 ≤ c.length)
    (m : MemoryRow) (hm : m ∈ c) :
    m.id ∉ (bigJoin cs).map (fun x => x.id) := by
  intro hmem
  obtain ⟨m', hm', hid⟩ := List.mem_map.1 hmem
  unfold bigJoin at hm'
  obtain ⟨c', hc', hmc'⟩ := List.mem_join.1 hm'
  have hc'cs : c' ∈ cs := List.mem_of_mem_filter hc'
  have hbig : 2 ≤ c'.length := by
    have := List.of_mem_filter hc'
    simpa using this
  have hcc : c = c' := join_nodup_cross cs hnd c hc c' hc'cs m hm m' hmc' hid.symm
  exact hlen (hcc ▸ hbig)

/-- The total membership of the size-≥2 clusters: the value the `consolidated`
counter of `run_consolidation` accumulates before any pruning. -/
def consolidatedCount (cs : List (List MemoryRow)) : ℕ :=
  ((cs.filter (fun c => decide (2 ≤ c.length))).map List.length).sum

/-- The count and store after the cluster loop of `run_consolidation`
(consolidation.py 22-43), before the reduced-retention pruning step. -/
noncomputable def consolidationMid (st : Store) (cutoff : ℕ)
    (newIds : ℕ → String) (now : ℕ) : ℕ × Store :=
  processClusters newIds now (cluster_memories (find_old_memories st cutoff)) 0 0 st

/-- C4: on a store with pairwise-distinct row ids and an injective uuid supply
fresh for the store, `run_consolidation` returns `(0, st)` when no old
short-term rows exist; otherwise, with `consolidationMid` the state after the
cluster loop: in full mode the result is exactly the consolidated-member count
paired with the mid store, and in reduced-retention mode the count additionally
adds the pruned low-importance short-term rows and the final store is the
pruned mid store; the mid store's rows are exactly the original rows minus the
members of size-≥2 clusters plus one summary row per size-≥2 cluster (so
size-1 clusters contribute no summary and no deletion); every member of a
size-1 cluster is still present, untouched, in the mid store; and for every
cluster of size ≥ 2 there is a summary id such that every member carries a
`consolidated_into` link of strength 1 to it, no row with a member's id
remains, and a `long_term` row with that id carrying the content and
importance of the highest-importance member is present in the mid store and
survives into the final store. -/
theorem run_consolidation_spec (st : Store) (tier : String) (cutoff : ℕ)
    (newIds : ℕ → String) (now : ℕ)
    (hnodup : (st.memories.map (fun m => m.id)).Nodup)
    (hinj : Function.Injective newIds)
    (hfresh : ∀ j, ∀ r ∈ st.memories, newIds j ≠ r.id) :
    (find_old_memories st cutoff = [] →
      run_consolidation st tier cutoff newIds now = (0, st)) ∧
    (find_old_memories st cutoff ≠ [] →
      (tier = "full" →
        run_consolidation st tier cutoff newIds now
          = (consolidatedCount (cluster_memories (find_old_memories st cutoff)),
             (consolidationMid st cutoff newIds now).2)) ∧
      (tier ≠ "full" →
        run_consolidation st tier cutoff newIds now
          = (consolidatedCount (cluster_memories (find_old_memories st cutoff))
              + (prune_low_importance (consolidationMid st cutoff newIds now).2).1,
             (prune_low_importance (consolidationMid st cutoff newIds now).2).2)) ∧
      (consolidationMid st cutoff newIds now).2.memories
        = st.memories.filter (fun r => !decide (r.id ∈
            (bigJoin (cluster_memories (find_old_memories st cutoff))).map
              (fun m => m.id)))
          ++ expectedSummaries newIds now
              (cluster_memories (find_old_memories st cutoff)) 0 ∧
      (∀ c ∈ cluster_memories (find_old_memories st cutoff), c.length = 1 →
        ∀ m ∈ c, m ∈ (consolidationMid st cutoff newIds now).2.memories) ∧
      (∀ c ∈ cluster_memories (find_old_memories st cutoff), 2 ≤ c.length →
        ∃ sid,
          (∀ m ∈ c, (⟨m.id, sid, "consolidated_into", 1⟩ : LinkRow)
              ∈ (consolidationMid st cutoff newIds now).2.links) ∧
          (∀ m ∈ c, ∀ r ∈ (consolidationMid st cutoff newIds now).2.memories,
              r.id ≠ m.id) ∧
          ∃ row, row ∈ (consolidationMid st cutoff newIds now).2.memories ∧
            row ∈ (run_consolidation st tier cutoff newIds now).2.memories ∧
            row.id = sid ∧ row.tier = "long_term" ∧
            ∃ rep ∈ c, (∀ x ∈ c, x.importance ≤ rep.importance) ∧
              row.content = rep.content ∧ row.importance = rep.importance)) := by
  constructor
  · intro h0
    simp only [run_consolidation]
    rw [if_pos h0]
  · intro h0
    have hsub : ((cluster_memories (find_old_memories st cutoff)).join).Subperm
        (find_old_memories st cutoff) :=
      cluster_memories_join_subperm _ (find_old_memories st cutoff).length
        (find_old_memories st cutoff) le_rfl
    have holdnd : ((find_old_memories st cutoff).map (fun m => m.id)).Nodup :=
      ((List.filter_sublist _).map _).nodup hnodup
    have hjoinnd : (((cluster_memories (find_old_memories st cutoff)).join).map
        (fun m => m.id)).Nodup :=
      subperm_nodup (subperm_map _ hsub) holdnd
    have holdsub : ∀ m ∈ find_old_memories st cutoff, m ∈ st.memories := by
      intro m hm
      exact List.mem_of_mem_filter hm
    have hjoinsub : ∀ m ∈ (cluster_memories (find_old_memories st cutoff)).join,
        m ∈ st.memories := by
      intro m hm
      exact holdsub m (hsub.subset hm)
    have hfresh0 : ∀ j, 0 ≤ j → ∀ r ∈ st.memories, newIds j ≠ r.id := by
      intro j _ r hr
      exact hfresh j r hr
    obtain ⟨hA, hB, hC⟩ := processClusters_spec newIds now hinj
      (cluster_memories (find_old_memories st cutoff)) 0 0 st hnodup hjoinnd
      hjoinsub hfresh0
    rw [Nat.zero_add] at hA
    have hmidfst : (consolidationMid st cutoff newIds now).1
        = consolidatedCount (cluster_memories (find_old_memories st cutoff)) := by
      simp only [consolidationMid, consolidatedCount]
      exact hA
    have hfull : ∀ ht : tier = "full",
        run_consolidation st tier cutoff newIds now
          = (consolidatedCount (cluster_memories (find_old_memories st cutoff)),
             (consolidationMid st cutoff newIds now).2) := by
      intro ht
      simp only [run_consolidation]
      rw [if_neg h0, if_neg (fun h => h ht)]
      rw [Prod.ext_iff]
      exact ⟨hmidfst, rfl⟩
    have hred : ∀ ht : tier ≠ "full",
        run_consolidation st tier cutoff newIds now
          = (consolidatedCount (cluster_memories (find_old_memories st cutoff))
              + (prune_low_importance (consolidationMid st cutoff newIds now).2).1,
             (prune_low_importance (consolidationMid st cutoff newIds now).2).2) := by
      intro ht
      simp only [run_consolidation]
      rw [if_neg h0, if_pos ht]
      rw [Prod.ext_iff]
      exact ⟨by rw [← hmidfst]; rfl, rfl⟩
    refine ⟨hfull, hred, ?_, ?_, ?_⟩
    · simp only [consolidationMid]
      exact hB
    · intro c hc hlen1 m hm
      simp only [consolidationMid]
      rw [hB]
      apply List.mem_append_left
      rw [List.mem_filter]
      refine ⟨hjoinsub m (List.mem_join.2 ⟨c, hc, hm⟩), ?_⟩
      have hnot := small_cluster_not_big _ hjoinnd c hc (by omega) m hm
      simpa using hnot
    · intro c hc hlen
      obtain ⟨sid, hlinks, row, hrowmem, hrowid, hrowtier, rep, hrepc, hrepmax,
        hrepcont, hrepimp⟩ := hC c hc hlen
      have hmidmem : row ∈ (consolidationMid st cutoff newIds now).2.memories := by
        simp only [consolidationMid]
        exact hrowmem
      refine ⟨sid, ?_, ?_, row, hmidmem, ?_, hrowid, hrowtier, rep, hrepc,
        hrepmax, hrepcont, hrepimp⟩
      · intro m hm
        simp only [consolidationMid]
        exact hlinks m hm
      · intro m hm r hr heq
        simp only [consolidationMid] at hr
        rw [hB] at hr
        rcases List.mem_append.1 hr with hr' | hr'
        · rw [List.mem_filter] at hr'
          have hmbig : m.id ∈ (bigJoin (cluster_memories
              (find_old_memories st cutoff))).map (fun x => x.id) := by
            apply List.mem_map.2
            refine ⟨m, ?_, rfl⟩
            unfold bigJoin
            exact List.mem_join.2 ⟨c, List.mem_filter.2 ⟨hc, by simpa using hlen⟩, hm⟩
          have := hr'.2
          rw [heq] at this
          simp only [Bool.not_eq_true', decide_eq_false_iff_not] at this
          exact this hmbig
        · obtain ⟨j, _, hjid⟩ := expectedSummaries_ids newIds now _ 0 r hr'
          exact hfresh j m (hjoinsub m (List.mem_join.2 ⟨c, hc, hm⟩))
            (by rw [← hjid, heq])
      · by_cases ht : tier = "full"
        · have heqrun : (run_consolidation st tier cutoff newIds now).2
              = (consolidationMid st cutoff newIds now).2 := by
            simp only [run_consolidation]
            rw [if_neg h0, if_neg (fun h => h ht)]
            rfl
          rw [heqrun]
          exact hmidmem
        · have heqrun : (run_consolidation st tier cutoff newIds now).2
              = (prune_low_importance (consolidationMid st cutoff newIds now).2).2 := by
            simp only [run_consolidation]
            rw [if_neg h0, if_pos ht]
            rfl
          rw [heqrun]
          simp only [prune_low_importance]
          rw [List.mem_filter]
          refine ⟨hmidmem, ?_⟩
          simp [hrowtier]

/-- Store used to instantiate the consolidation hypotheses. -/
def wConsStore : Store := ⟨[], []⟩

/-- Injective uuid supply used to instantiate the consolidation hypotheses. -/
def wConsIds : ℕ → String := fun n => String.mk (List.replicate (n + 1) 'i')

/-- Witness instantiating the consolidation theorem at an empty store with an
injective fresh id supply. -/
theorem run_consolidation_spec_witness :
    ((wConsStore.memories.map (fun m => m.id)).Nodup ∧
     Function.Injective wConsIds ∧
     (∀ j, ∀ r ∈ wConsStore.memories, wConsIds j ≠ r.id)) ∧
    ((find_old_memories wConsStore 3 = [] →
      run_consolidation wConsStore "full" 3 wConsIds 7 = (0, wConsStore)) ∧
    (find_old_memories wConsStore 3 ≠ [] →
      ("full" = "full" →
        run_consolidation wConsStore "full" 3 wConsIds 7
          = (consolidatedCount (cluster_memories (find_old_memories wConsStore 3)),
             (consolidationMid wConsStore 3 wConsIds 7).2)) ∧
      (("full" : String) ≠ "full" →
        run_consolidation wConsStore "full" 3 wConsIds 7
          = (consolidatedCount (cluster_memories (find_old_memories wConsStore 3))
              + (prune_low_importance (consolidationMid wConsStore 3 wConsIds 7).2).1,
             (prune_low_importance (consolidationMid wConsStore 3 wConsIds 7).2).2)) ∧
      (consolidationMid wConsStore 3 wConsIds 7).2.memories
        = wConsStore.memories.filter (fun r => !decide (r.id ∈
            (bigJoin (cluster_memories (find_old_memories wConsStore 3))).map
              (fun m => m.id)))
          ++ expectedSummaries wConsIds 7
              (cluster_memories (find_old_memories wConsStore 3)) 0 ∧
      (∀ c ∈ cluster_memories (find_old_memories wConsStore 3), c.length = 1 →
        ∀ m ∈ c, m ∈ (consolidationMid wConsStore 3 wConsIds 7).2.memories) ∧
      (∀ c ∈ cluster_memories (find_old_memories wConsStore 3), 2 ≤ c.length →
        ∃ sid,
          (∀ m ∈ c, (⟨m.id, sid, "consolidated_into", 1⟩ : LinkRow)
              ∈ (consolidationMid wConsStore 3 wConsIds 7).2.links) ∧
          (∀ m ∈ c, ∀ r ∈ (consolidationMid wConsStore 3 wConsIds 7).2.memories,
              r.id ≠ m.id) ∧
          ∃ row, row ∈ (consolidationMid wConsStore 3 wConsIds 7).2.memories ∧
            row ∈ (run_consolidation wConsStore "full" 3 wConsIds 7).2.memories ∧
            row.id = sid ∧ row.tier = "long_term" ∧
            ∃ rep ∈ c, (∀ x ∈ c, x.importance ≤ rep.importance) ∧
              row.content = rep.content ∧ row.importance = rep.importance))) :=
  have h1 : (wConsStore.memories.map (fun m => m.id)).Nodup := by
    simp [wConsStore]
  have h2 : Function.Injective wConsIds := by
    intro a b h
    have hlen := congrArg (fun s => s.data.length) h
    simp only [wConsIds, stringMk_data] at hlen
    simpa using hlen
  have h3 : ∀ j, ∀ r ∈ wConsStore.memories, wConsIds j ≠ r.id := by
    intro j r hr
    simp [wConsStore] at hr
  ⟨⟨h1, h2, h3⟩,
    run_consolidation_spec wConsStore "full" 3 wConsIds 7 h1 h2 h3⟩
